import Mathlib

/-!
# Verification of the iofog port-manager reconciliation engine

A shallow embedding, in Lean 4, of the core of the `eclipse-iofog/port-manager`
repository: the config codec (`internal/manager/proxy.go`, `strings.go`),
the reconciliation tick and Update-Proxy logic (`Manager.run`,
`Manager.updateProxy` and friends), and the address-registrar loop
(`Manager.registerProxyAddress`).

Go strings are embedded as `List Char`; Go's `strings.Index`, `strings.LastIndex`,
`strings.Split`, `strings.SplitAfter` and `strconv.Atoi` are reimplemented with
Go's semantics.  Loops whose termination depends on the shrinking of a string
(`between`, `Split`, `SplitAfter`) are embedded with an explicit iteration
budget (`Option`-valued, `none` when the budget is exhausted) and a proven
sufficiency bound, so that all definitions compute by kernel reduction.
-/

namespace PortManager

/-- Go strings, embedded as lists of characters. -/
abbrev GoStr := List Char

/-! ## Go string primitives -/

/-- Helper for `goIndex`: first index `≥ i` at which `pat` occurs in the
remaining string `s` (which starts at absolute position `i`). -/
def goIndexFrom (pat : GoStr) : GoStr → Nat → Option Nat
  | [], i => if pat.isPrefixOf ([] : GoStr) then some i else none
  | s@(_ :: t), i => if pat.isPrefixOf s then some i else goIndexFrom pat t (i + 1)

/-- Go `strings.Index(s, pat)`: index of the first occurrence of `pat` in `s`,
`none` for Go's `-1`. -/
def goIndex (s pat : GoStr) : Option Nat := goIndexFrom pat s 0

/-- `pat` occurs in `s` starting at position `k`. -/
def occursAt (s pat : GoStr) (k : Nat) : Prop := pat <+: s.drop k

instance (s pat : GoStr) (k : Nat) : Decidable (occursAt s pat k) := by
  unfold occursAt; infer_instance

/-- Helper for `goLastIndex`: the largest index `≤ n` at which `pat` occurs
in `s`, searching downward. -/
def goLastIndexAux (pat s : GoStr) : Nat → Option Nat
  | 0 => if pat.isPrefixOf (s.drop 0) then some 0 else none
  | n + 1 => if pat.isPrefixOf (s.drop (n + 1)) then some (n + 1) else goLastIndexAux pat s n

/-- Go `strings.LastIndex(s, pat)`: index of the last occurrence of `pat` in
`s`, `none` for Go's `-1`. -/
def goLastIndex (s pat : GoStr) : Option Nat := goLastIndexAux pat s s.length

/-- Go `before(input, substr)` from `internal/manager/strings.go`: the prefix of
`input` preceding the first occurrence of `substr`, or all of `input` when
`substr` is absent. -/
def goBefore (input substr : GoStr) : GoStr :=
  match goIndex input substr with
  | none => input
  | some pos => input.take pos

/-- Whether `pat` occurs anywhere in `s`, as a boolean. -/
def containsSub (s pat : GoStr) : Bool :=
  (List.range (s.length + 1)).any (fun k => pat.isPrefixOf (s.drop k))

/-! ### Basic lemmas about the primitives -/

theorem goIndexFrom_eq_some (pat : GoStr) :
    ∀ (s : GoStr) (i j : Nat), goIndexFrom pat s i = some j →
      i ≤ j ∧ pat <+: s.drop (j - i) ∧
        ∀ k, i ≤ k → k < j → ¬ pat <+: s.drop (k - i) := by
  intro s
  induction s with
  | nil =>
    intro i j h
    unfold goIndexFrom at h
    by_cases hp : pat <+: ([] : GoStr)
    · simp [hp] at h
      subst h
      refine ⟨le_rfl, by simpa using hp, ?_⟩
      intro k hk1 hk2; omega
    · simp [hp] at h
  | cons c t ih =>
    intro i j h
    unfold goIndexFrom at h
    by_cases hp : pat <+: (c :: t)
    · simp [hp] at h
      subst h
      refine ⟨le_rfl, by simpa using hp, ?_⟩
      intro k hk1 hk2; omega
    · simp [hp] at h
      obtain ⟨h1, h2, h3⟩ := ih (i + 1) j h
      refine ⟨by omega, ?_, ?_⟩
      · have : j - i = (j - (i + 1)) + 1 := by omega
        rw [this]
        simpa using h2
      · intro k hk1 hk2
        rcases Nat.eq_or_lt_of_le hk1 with hk | hk
        · subst hk
          simpa [Nat.sub_self] using hp
        · have := h3 k hk hk2
          have heq : k - i = (k - (i + 1)) + 1 := by omega
          rw [heq]
          simpa using this

/-- Characterisation of `goIndex`: it returns the first occurrence. -/
theorem goIndex_eq_some (s pat : GoStr) (j : Nat) (h : goIndex s pat = some j) :
    occursAt s pat j ∧ ∀ k < j, ¬ occursAt s pat k := by
  obtain ⟨_, h2, h3⟩ := goIndexFrom_eq_some pat s 0 j h
  refine ⟨by simpa [occursAt] using h2, ?_⟩
  intro k hk
  have := h3 k (Nat.zero_le _) hk
  simpa [occursAt] using this

theorem goIndexFrom_isSome_of_occurs (pat : GoStr) :
    ∀ (s : GoStr) (i k : Nat), pat <+: s.drop k →
      (goIndexFrom pat s i).isSome := by
  intro s
  induction s with
  | nil =>
    intro i k h
    simp at h
    unfold goIndexFrom
    simp [h]
  | cons c t ih =>
    intro i k h
    unfold goIndexFrom
    by_cases hp : pat <+: (c :: t)
    · simp [hp]
    · simp [hp]
      cases k with
      | zero => simp at h; exact absurd h hp
      | succ k' =>
        simp at h
        exact ih (i + 1) k' h

/-- If `pat` occurs in `s`, `goIndex` finds some occurrence. -/
theorem goIndex_isSome_of_occurs (s pat : GoStr) (k : Nat) (h : occursAt s pat k) :
    (goIndex s pat).isSome :=
  goIndexFrom_isSome_of_occurs pat s 0 k h

/-- If `pat` occurs nowhere in `s`, `goIndex` returns `none`. -/
theorem goIndex_eq_none (s pat : GoStr) (h : ∀ k, ¬ occursAt s pat k) :
    goIndex s pat = none := by
  cases hi : goIndex s pat with
  | none => rfl
  | some j =>
    exact absurd (goIndex_eq_some s pat j hi).1 (h j)

/-- An occurrence found by `goIndex` lies within the string. -/
theorem goIndex_le (s pat : GoStr) (j : Nat) (h : goIndex s pat = some j) :
    j + pat.length ≤ s.length := by
  have h1 := (goIndex_eq_some s pat j h).1
  unfold occursAt at h1
  have h3 : pat.length ≤ (s.drop j).length := h1.length_le
  simp [List.length_drop] at h3
  by_cases hj : j ≤ s.length
  · omega
  · exfalso
    push_neg at hj
    have hdrop : s.drop j = [] := List.drop_eq_nil_of_le (by omega)
    rw [hdrop] at h1
    have hpat : pat = [] := List.prefix_nil.mp h1
    subst hpat
    have h0 : occursAt s [] 0 := by simp [occursAt]
    have := (goIndex_eq_some s [] j h).2
    exact (this 0 (by omega)) h0

theorem goLastIndexAux_eq_some (pat s : GoStr) :
    ∀ (n j : Nat), goLastIndexAux pat s n = some j →
      j ≤ n ∧ occursAt s pat j ∧ ∀ k, j < k → k ≤ n → ¬ occursAt s pat k := by
  intro n
  induction n with
  | zero =>
    intro j h
    unfold goLastIndexAux at h
    by_cases hp : pat <+: s
    · simp [hp] at h
      subst h
      exact ⟨le_rfl, by simpa [occursAt] using hp, by intro k hk1 hk2; omega⟩
    · simp [hp] at h
  | succ n ih =>
    intro j h
    unfold goLastIndexAux at h
    by_cases hp : pat <+: s.drop (n + 1)
    · simp [hp] at h
      subst h
      exact ⟨le_rfl, by simpa [occursAt] using hp, by intro k hk1 hk2; omega⟩
    · simp [hp] at h
      obtain ⟨h1, h2, h3⟩ := ih j h
      refine ⟨by omega, h2, ?_⟩
      intro k hk1 hk2
      rcases Nat.lt_or_ge k (n + 1) with hk | hk
      · exact h3 k hk1 (by omega)
      · have : k = n + 1 := by omega
        subst this
        simpa [occursAt] using hp

theorem goLastIndexAux_isSome (pat s : GoStr) :
    ∀ (n k : Nat), k ≤ n → occursAt s pat k → (goLastIndexAux pat s n).isSome := by
  intro n
  induction n with
  | zero =>
    intro k hk h
    have : k = 0 := by omega
    subst this
    unfold goLastIndexAux
    simp [occursAt] at h
    simp [h]
  | succ n ih =>
    intro k hk h
    unfold goLastIndexAux
    by_cases hp : pat <+: s.drop (n + 1)
    · simp [hp]
    · simp [hp]
      rcases Nat.lt_or_ge k (n + 1) with hk' | hk'
      · exact ih k (by omega) h
      · have : k = n + 1 := by omega
        subst this
        exact absurd h (by simpa [occursAt] using hp)

/-- Characterisation of `goLastIndex`: it returns the last occurrence among the
positions `0, …, s.length`. -/
theorem goLastIndex_eq_some (s pat : GoStr) (j : Nat)
    (h : goLastIndex s pat = some j) :
    occursAt s pat j ∧ ∀ k, j < k → k ≤ s.length → ¬ occursAt s pat k := by
  obtain ⟨_, h2, h3⟩ := goLastIndexAux_eq_some pat s s.length j h
  exact ⟨h2, h3⟩

theorem goLastIndex_isSome_of_occurs (s pat : GoStr) (k : Nat)
    (hk : k ≤ s.length) (h : occursAt s pat k) : (goLastIndex s pat).isSome :=
  goLastIndexAux_isSome pat s s.length k hk h

/-- `goIndex` computed from a witness: an occurrence at `j` with none earlier. -/
theorem goIndex_eq_of (s pat : GoStr) (j : Nat) (hocc : occursAt s pat j)
    (hbefore : ∀ k < j, ¬ occursAt s pat k) : goIndex s pat = some j := by
  have hs := goIndex_isSome_of_occurs s pat j hocc
  obtain ⟨j', hj'⟩ := Option.isSome_iff_exists.mp hs
  obtain ⟨h1, h2⟩ := goIndex_eq_some s pat j' hj'
  rcases Nat.lt_trichotomy j' j with h | h | h
  · exact absurd h1 (hbefore j' h)
  · rw [hj', h]
  · exact absurd hocc (h2 j h)

/-- `goLastIndex` computed from a witness: an occurrence at `j` with none later. -/
theorem goLastIndex_eq_of (s pat : GoStr) (j : Nat) (hj : j ≤ s.length)
    (hocc : occursAt s pat j)
    (hafter : ∀ k, j < k → k ≤ s.length → ¬ occursAt s pat k) :
    goLastIndex s pat = some j := by
  have hs := goLastIndex_isSome_of_occurs s pat j hj hocc
  obtain ⟨j', hj'⟩ := Option.isSome_iff_exists.mp hs
  obtain ⟨h1, h2, h3⟩ := goLastIndexAux_eq_some pat s s.length j' hj'
  rcases Nat.lt_trichotomy j' j with h | h | h
  · exact absurd hocc (h3 j h hj)
  · rw [hj', h]
  · exact absurd h2 (hafter j' h h1)

/-! ## `between`, `Split`, `SplitAfter` as budgeted loops

`between` (in `internal/manager/strings.go`) is a `for` loop whose guard
`iter < len(value)+1` can never become false (`iter` stays `0` and
`len(value)+1 ≥ 1`), so the loop exits only through its `return` statements;
each continuing iteration replaces `value` by `value[posLast+1:]`.  We embed
one loop iteration per unit of budget; `none` means the budget was exhausted
before the loop returned. -/

/-- The loop of `between(value, a, b)` from `internal/manager/strings.go`,
running at most `fuel` iterations. -/
def betweenF : Nat → GoStr → GoStr → GoStr → Option (List GoStr)
  | 0, _, _, _ => none
  | fuel + 1, value, a, b =>
    match goIndex value b with
    | none => some []
    | some posLast =>
      match goLastIndex (value.take posLast) a with
      | none => some []
      | some posFirst =>
        if posFirst + a.length ≥ posLast then some []
        else
          (betweenF fuel (value.drop (posLast + 1)) a b).map
            (fun rest => ((value.take posLast).drop (posFirst + a.length)) :: rest)

/-- Go `between(value, a, b)`: all substrings strictly between the last
occurrence of `a` preceding each first occurrence of `b`, scanning left to
right.  A budget of `len(value) + 1` iterations is proven sufficient
(`betweenF_spec`). -/
def between (value a b : GoStr) : List GoStr :=
  (betweenF (value.length + 1) value a b).getD []

/-- The result of the `between` loop does not depend on the budget, once the
budget exceeds the length of `value`. -/
theorem betweenF_irrel :
    ∀ (n : Nat) (value a b : GoStr) (f1 f2 : Nat), value.length ≤ n →
      value.length < f1 → value.length < f2 →
      betweenF f1 value a b = betweenF f2 value a b := by
  intro n
  induction n with
  | zero =>
    intro value a b f1 f2 hn h1 h2
    match f1, h1, f2, h2 with
    | g1 + 1, _, g2 + 1, _ =>
      simp only [betweenF]
      split
      · rfl
      next posLast hidx =>
        split
        · rfl
        next posFirst hlast =>
          split
          · rfl
          next hge =>
            have hb := goIndex_le value b posLast hidx
            omega
  | succ n ih =>
    intro value a b f1 f2 hn h1 h2
    match f1, h1, f2, h2 with
    | g1 + 1, _, g2 + 1, _ =>
      simp only [betweenF]
      split
      · rfl
      next posLast hidx =>
        split
        · rfl
        next posFirst hlast =>
          split
          · rfl
          next hge =>
            have hb := goIndex_le value b posLast hidx
            have hpos : 1 ≤ posLast := by omega
            have hlen : (value.drop (posLast + 1)).length
                = value.length - (posLast + 1) := by
              simp [List.length_drop]
            rw [ih (value.drop (posLast + 1)) a b g1 g2 (by omega) (by omega) (by omega)]

/-- The `between` loop returns within any budget exceeding the length of
`value`: every continuing iteration finds `b` at a position of at least `1`
and strictly shortens `value`. -/
theorem betweenF_isSome :
    ∀ (n : Nat) (value a b : GoStr) (fuel : Nat), value.length ≤ n →
      value.length < fuel → (betweenF fuel value a b).isSome := by
  intro n
  induction n with
  | zero =>
    intro value a b fuel hn hf
    match fuel, hf with
    | g + 1, _ =>
      simp only [betweenF]
      split
      · rfl
      next posLast hidx =>
        split
        · rfl
        next posFirst hlast =>
          split
          · rfl
          next hge =>
            have hb := goIndex_le value b posLast hidx
            omega
  | succ n ih =>
    intro value a b fuel hn hf
    match fuel, hf with
    | g + 1, _ =>
      simp only [betweenF]
      split
      · rfl
      next posLast hidx =>
        split
        · rfl
        next posFirst hlast =>
          split
          · rfl
          next hge =>
            have hb := goIndex_le value b posLast hidx
            have hpos : 1 ≤ posLast := by omega
            have hlen : (value.drop (posLast + 1)).length
                = value.length - (posLast + 1) := by
              simp [List.length_drop]
            have := ih (value.drop (posLast + 1)) a b g (by omega) (by omega)
            obtain ⟨r, hr⟩ := Option.isSome_iff_exists.mp this
            simp [hr]

/-- With any sufficient budget, the loop of `between` computes `between`. -/
theorem betweenF_eq_between (value a b : GoStr) (fuel : Nat)
    (hf : value.length < fuel) :
    betweenF fuel value a b = some (between value a b) := by
  have hirr := betweenF_irrel value.length value a b fuel (value.length + 1)
    le_rfl hf (by omega)
  have hsome := betweenF_isSome value.length value a b (value.length + 1)
    le_rfl (by omega)
  obtain ⟨r, hr⟩ := Option.isSome_iff_exists.mp hsome
  unfold between
  rw [hirr, hr]
  rfl

/-- The loop of Go `strings.Split(s, sep)` (`sep ≠ ""`), one split per unit of
budget. -/
def goSplitF : Nat → GoStr → GoStr → Option (List GoStr)
  | 0, _, _ => none
  | fuel + 1, s, sep =>
    match goIndex s sep with
    | none => some [s]
    | some i => (goSplitF fuel (s.drop (i + sep.length)) sep).map (fun rest => s.take i :: rest)

/-- Go `strings.Split(s, sep)`.  For `sep = ""` Go explodes the string into
single runes; otherwise it cuts at every occurrence of `sep`. -/
def goSplit (s sep : GoStr) : List GoStr :=
  if sep.isEmpty then s.map (fun c => [c])
  else (goSplitF (s.length + 1) s sep).getD [s]

/-- The loop of Go `strings.SplitAfter(s, sep)` (`sep ≠ ""`): like `Split`
but each piece keeps its trailing separator. -/
def goSplitAfterF : Nat → GoStr → GoStr → Option (List GoStr)
  | 0, _, _ => none
  | fuel + 1, s, sep =>
    match goIndex s sep with
    | none => some [s]
    | some i =>
      (goSplitAfterF fuel (s.drop (i + sep.length)) sep).map
        (fun rest => s.take (i + sep.length) :: rest)

/-- Go `strings.SplitAfter(s, sep)`. -/
def goSplitAfter (s sep : GoStr) : List GoStr :=
  if sep.isEmpty then s.map (fun c => [c])
  else (goSplitAfterF (s.length + 1) s sep).getD [s]

theorem goSplitF_irrel :
    ∀ (n : Nat) (s sep : GoStr) (f1 f2 : Nat), sep ≠ [] → s.length ≤ n →
      s.length < f1 → s.length < f2 →
      goSplitF f1 s sep = goSplitF f2 s sep := by
  intro n
  induction n with
  | zero =>
    intro s sep f1 f2 hsep hn h1 h2
    match f1, h1, f2, h2 with
    | g1 + 1, _, g2 + 1, _ =>
      simp only [goSplitF]
      split
      · rfl
      next i hidx =>
        have hb := goIndex_le s sep i hidx
        have hseplen : 1 ≤ sep.length := List.length_pos.mpr hsep
        omega
  | succ n ih =>
    intro s sep f1 f2 hsep hn h1 h2
    match f1, h1, f2, h2 with
    | g1 + 1, _, g2 + 1, _ =>
      simp only [goSplitF]
      split
      · rfl
      next i hidx =>
        have hb := goIndex_le s sep i hidx
        have hseplen : 1 ≤ sep.length := List.length_pos.mpr hsep
        have hlen : (s.drop (i + sep.length)).length = s.length - (i + sep.length) := by
          simp [List.length_drop]
        rw [ih (s.drop (i + sep.length)) sep g1 g2 hsep (by omega) (by omega) (by omega)]

theorem goSplitF_isSome :
    ∀ (n : Nat) (s sep : GoStr) (fuel : Nat), sep ≠ [] → s.length ≤ n →
      s.length < fuel → (goSplitF fuel s sep).isSome := by
  intro n
  induction n with
  | zero =>
    intro s sep fuel hsep hn hf
    match fuel, hf with
    | g + 1, _ =>
      simp only [goSplitF]
      split
      · rfl
      next i hidx =>
        have hb := goIndex_le s sep i hidx
        have hseplen : 1 ≤ sep.length := List.length_pos.mpr hsep
        omega
  | succ n ih =>
    intro s sep fuel hsep hn hf
    match fuel, hf with
    | g + 1, _ =>
      simp only [goSplitF]
      split
      · rfl
      next i hidx =>
        have hb := goIndex_le s sep i hidx
        have hseplen : 1 ≤ sep.length := List.length_pos.mpr hsep
        have hlen : (s.drop (i + sep.length)).length = s.length - (i + sep.length) := by
          simp [List.length_drop]
        have := ih (s.drop (i + sep.length)) sep g hsep (by omega) (by omega)
        obtain ⟨r, hr⟩ := Option.isSome_iff_exists.mp this
        simp [hr]

theorem goSplitF_eq_goSplit (s sep : GoStr) (fuel : Nat) (hsep : sep ≠ [])
    (hf : s.length < fuel) : goSplitF fuel s sep = some (goSplit s sep) := by
  have hirr := goSplitF_irrel s.length s sep fuel (s.length + 1) hsep le_rfl hf (by omega)
  have hsome := goSplitF_isSome s.length s sep (s.length + 1) hsep le_rfl (by omega)
  obtain ⟨r, hr⟩ := Option.isSome_iff_exists.mp hsome
  unfold goSplit
  have hne : sep.isEmpty = false := by
    cases sep with
    | nil => exact absurd rfl hsep
    | cons c t => rfl
  rw [hne]
  simp only [Bool.false_eq_true, if_false]
  rw [hirr, hr]
  rfl

theorem goSplitAfterF_irrel :
    ∀ (n : Nat) (s sep : GoStr) (f1 f2 : Nat), sep ≠ [] → s.length ≤ n →
      s.length < f1 → s.length < f2 →
      goSplitAfterF f1 s sep = goSplitAfterF f2 s sep := by
  intro n
  induction n with
  | zero =>
    intro s sep f1 f2 hsep hn h1 h2
    match f1, h1, f2, h2 with
    | g1 + 1, _, g2 + 1, _ =>
      simp only [goSplitAfterF]
      split
      · rfl
      next i hidx =>
        have hb := goIndex_le s sep i hidx
        have hseplen : 1 ≤ sep.length := List.length_pos.mpr hsep
        omega
  | succ n ih =>
    intro s sep f1 f2 hsep hn h1 h2
    match f1, h1, f2, h2 with
    | g1 + 1, _, g2 + 1, _ =>
      simp only [goSplitAfterF]
      split
      · rfl
      next i hidx =>
        have hb := goIndex_le s sep i hidx
        have hseplen : 1 ≤ sep.length := List.length_pos.mpr hsep
        have hlen : (s.drop (i + sep.length)).length = s.length - (i + sep.length) := by
          simp [List.length_drop]
        rw [ih (s.drop (i + sep.length)) sep g1 g2 hsep (by omega) (by omega) (by omega)]

theorem goSplitAfterF_isSome :
    ∀ (n : Nat) (s sep : GoStr) (fuel : Nat), sep ≠ [] → s.length ≤ n →
      s.length < fuel → (goSplitAfterF fuel s sep).isSome := by
  intro n
  induction n with
  | zero =>
    intro s sep fuel hsep hn hf
    match fuel, hf with
    | g + 1, _ =>
      simp only [goSplitAfterF]
      split
      · rfl
      next i hidx =>
        have hb := goIndex_le s sep i hidx
        have hseplen : 1 ≤ sep.length := List.length_pos.mpr hsep
        omega
  | succ n ih =>
    intro s sep fuel hsep hn hf
    match fuel, hf with
    | g + 1, _ =>
      simp only [goSplitAfterF]
      split
      · rfl
      next i hidx =>
        have hb := goIndex_le s sep i hidx
        have hseplen : 1 ≤ sep.length := List.length_pos.mpr hsep
        have hlen : (s.drop (i + sep.length)).length = s.length - (i + sep.length) := by
          simp [List.length_drop]
        have := ih (s.drop (i + sep.length)) sep g hsep (by omega) (by omega)
        obtain ⟨r, hr⟩ := Option.isSome_iff_exists.mp this
        simp [hr]

theorem goSplitAfterF_eq (s sep : GoStr) (fuel : Nat) (hsep : sep ≠ [])
    (hf : s.length < fuel) : goSplitAfterF fuel s sep = some (goSplitAfter s sep) := by
  have hirr := goSplitAfterF_irrel s.length s sep fuel (s.length + 1) hsep le_rfl hf (by omega)
  have hsome := goSplitAfterF_isSome s.length s sep (s.length + 1) hsep le_rfl (by omega)
  obtain ⟨r, hr⟩ := Option.isSome_iff_exists.mp hsome
  unfold goSplitAfter
  have hne : sep.isEmpty = false := by
    cases sep with
    | nil => exact absurd rfl hsep
    | cons c t => rfl
  rw [hne]
  simp only [Bool.false_eq_true, if_false]
  rw [hirr, hr]
  rfl

/-! ### Occurrence lemmas for concatenated strings -/

/-- An occurrence of a nonempty pattern pins down the character at its start. -/
theorem occursAt_head (s : GoStr) (c : Char) (cs : GoStr) (k : Nat)
    (h : occursAt s (c :: cs) k) : s[k]? = some c := by
  unfold occursAt at h
  obtain ⟨u, hu⟩ := h
  have hk : k < s.length := by
    by_contra hk
    push_neg at hk
    have : s.drop k = [] := List.drop_eq_nil_of_le hk
    rw [this] at hu
    simp at hu
  have hs : s = s.take k ++ s.drop k := (List.take_append_drop k s).symm
  rw [← hu] at hs
  conv_lhs => rw [hs]
  rw [List.getElem?_append_right (by simp [List.length_take])]
  simp [List.length_take, Nat.min_eq_left (Nat.le_of_lt hk)]

/-- Occurrences at or past the end of `x` in `x ++ y` are occurrences in `y`. -/
theorem occursAt_append_right (x y pat : GoStr) (k : Nat) :
    occursAt (x ++ y) pat (x.length + k) ↔ occursAt y pat k := by
  unfold occursAt
  rw [← List.drop_drop, List.drop_left]

/-- An occurrence of `c :: cs` strictly inside `x` forces `c ∈ x`. -/
theorem mem_of_occursAt_lt (x y : GoStr) (c : Char) (cs : GoStr) (k : Nat)
    (hk : k < x.length) (h : occursAt (x ++ y) (c :: cs) k) : c ∈ x := by
  have := occursAt_head (x ++ y) c cs k h
  rw [List.getElem?_append_left hk] at this
  obtain ⟨hlt, hget⟩ := List.getElem?_eq_some_iff.mp this
  rw [← hget]
  exact List.getElem_mem hlt

/-- A pattern that is a prefix of `y` occurs in `x ++ y` at position `x.length`. -/
theorem occursAt_append_of_prefix (x y pat : GoStr) (h : pat <+: y) :
    occursAt (x ++ y) pat x.length := by
  unfold occursAt
  rwa [List.drop_left]

/-- Shortening the pattern preserves an occurrence. -/
theorem occursAt_of_prefix (s pat pat' : GoStr) (k : Nat) (h : occursAt s pat k)
    (hp : pat' <+: pat) : occursAt s pat' k :=
  hp.trans h

/-! ## `strconv.Atoi` and decimal formatting -/

/-- The ten decimal digit characters. -/
def digitChars : GoStr := ['0', '1', '2', '3', '4', '5', '6', '7', '8', '9']

/-- The decimal digit character for `d % 10`. -/
def digitChar (d : Nat) : Char :=
  match d with
  | 0 => '0' | 1 => '1' | 2 => '2' | 3 => '3' | 4 => '4'
  | 5 => '5' | 6 => '6' | 7 => '7' | 8 => '8' | _ => '9'

/-- Numeric value of a digit character. -/
def digitVal (c : Char) : Nat := c.toNat - 48

/-- Parse a nonempty all-digit string as a natural number (the digit loop of
Go `strconv.Atoi`). -/
def parseDigits (s : GoStr) : Option Nat :=
  if s.isEmpty then none
  else if s.all Char.isDigit then
    some (s.foldl (fun n c => n * 10 + digitVal c) 0)
  else none

/-- Go `strconv.Atoi(s)` on a 64-bit platform: optional single sign, then a
nonempty run of decimal digits; errors (`none`) on empty input, stray
characters, and values outside the `int64` range. -/
def goAtoi (s : GoStr) : Option Int :=
  match s with
  | [] => none
  | c :: rest =>
    if c = '+' then
      match parseDigits rest with
      | none => none
      | some n => if n ≤ 9223372036854775807 then some (n : Int) else none
    else if c = '-' then
      match parseDigits rest with
      | none => none
      | some n => if n ≤ 9223372036854775808 then some (-(n : Int)) else none
    else
      match parseDigits s with
      | none => none
      | some n => if n ≤ 9223372036854775807 then some (n : Int) else none

/-- Decimal digits of `n`, least significant first, with an iteration budget. -/
def natToRevF : Nat → Nat → GoStr
  | 0, _ => []
  | fuel + 1, n => if n = 0 then [] else digitChar (n % 10) :: natToRevF fuel (n / 10)

/-- Decimal digits of `n`, least significant first (empty for `0`). -/
def natToRev (n : Nat) : GoStr := natToRevF (n + 1) n

theorem natToRevF_irrel :
    ∀ (m n f1 f2 : Nat), n ≤ m → n < f1 → n < f2 → natToRevF f1 n = natToRevF f2 n := by
  intro m
  induction m with
  | zero =>
    intro n f1 f2 hm h1 h2
    have : n = 0 := by omega
    subst this
    match f1, h1, f2, h2 with
    | g1 + 1, _, g2 + 1, _ => simp [natToRevF]
  | succ m ih =>
    intro n f1 f2 hm h1 h2
    match f1, h1, f2, h2 with
    | g1 + 1, _, g2 + 1, _ =>
      simp only [natToRevF]
      by_cases hn : n = 0
      · simp [hn]
      · simp only [hn, if_false]
        have hdiv : n / 10 < n := Nat.div_lt_self (by omega) (by omega)
        rw [ih (n / 10) g1 g2 (by omega) (by omega) (by omega)]

/-- Unfolding equation for `natToRev` on a nonzero argument. -/
theorem natToRev_eq (n : Nat) (hn : n ≠ 0) :
    natToRev n = digitChar (n % 10) :: natToRev (n / 10) := by
  unfold natToRev
  conv_lhs => simp only [natToRevF]
  simp only [hn, if_false]
  have hdiv : n / 10 < n := Nat.div_lt_self (by omega) (by omega)
  rw [natToRevF_irrel n (n / 10) n (n / 10 + 1) (by omega) (by omega) (by omega)]

theorem natToRev_zero : natToRev 0 = [] := rfl

theorem digitChar_mem (d : Nat) : digitChar d ∈ digitChars := by
  unfold digitChar digitChars
  split <;> simp

theorem digitVal_digitChar (d : Nat) (h : d < 10) : digitVal (digitChar d) = d := by
  interval_cases d <;> rfl

theorem isDigit_of_mem_digitChars (c : Char) (h : c ∈ digitChars) : c.isDigit = true := by
  simp only [digitChars, List.mem_cons, List.not_mem_nil, or_false] at h
  rcases h with rfl | rfl | rfl | rfl | rfl | rfl | rfl | rfl | rfl | rfl <;> decide

/-- Every character produced by `natToRev` is a decimal digit. -/
theorem natToRev_chars (n : Nat) : ∀ c ∈ natToRev n, c ∈ digitChars := by
  induction n using Nat.strong_induction_on with
  | _ n ih =>
    by_cases hn : n = 0
    · subst hn; simp [natToRev_zero]
    · rw [natToRev_eq n hn]
      intro c hc
      rcases List.mem_cons.mp hc with h | h
      · subst h; exact digitChar_mem _
      · exact ih (n / 10) (Nat.div_lt_self (by omega) (by omega)) c h

/-- Horner evaluation of the most-significant-first digit string of `n`. -/
theorem natToRev_foldl (n : Nat) :
    ∀ acc : Nat,
      ((natToRev n).reverse).foldl (fun m c => m * 10 + digitVal c) acc =
        acc * 10 ^ (natToRev n).length + n := by
  induction n using Nat.strong_induction_on with
  | _ n ih =>
    intro acc
    by_cases hn : n = 0
    · subst hn; simp [natToRev_zero]
    · rw [natToRev_eq n hn]
      simp only [List.reverse_cons, List.foldl_append, List.length_cons]
      have hdiv : n / 10 < n := Nat.div_lt_self (by omega) (by omega)
      rw [ih (n / 10) hdiv acc]
      simp only [List.foldl_cons, List.foldl_nil]
      rw [digitVal_digitChar (n % 10) (Nat.mod_lt _ (by omega))]
      have hmod := Nat.div_add_mod n 10
      ring_nf
      omega

/-- Parsing the digit string of a positive `n` recovers `n`. -/
theorem parseDigits_natToRev (n : Nat) (hn : n ≠ 0) :
    parseDigits ((natToRev n).reverse) = some n := by
  have hne : natToRev n ≠ [] := by
    rw [natToRev_eq n hn]; simp
  unfold parseDigits
  have hemp : ((natToRev n).reverse).isEmpty = false := by
    cases hrev : (natToRev n).reverse with
    | nil =>
      exfalso
      apply hne
      have := congrArg List.reverse hrev
      simpa using this
    | cons c rest => rfl
  rw [hemp]
  have hall : ((natToRev n).reverse).all Char.isDigit = true := by
    rw [List.all_eq_true]
    intro c hc
    exact isDigit_of_mem_digitChars c (natToRev_chars n c (List.mem_reverse.mp hc))
  rw [hall]
  simp only [Bool.false_eq_true, if_false, if_true]
  rw [natToRev_foldl n 0]
  simp

/-- Go `fmt`-style decimal rendering of an `int` (`%d`). -/
def intToGoStr (i : Int) : GoStr :=
  if i < 0 then '-' :: (natToRev i.natAbs).reverse
  else if i = 0 then ['0']
  else (natToRev i.natAbs).reverse

/-- Characters of a rendered integer: a minus sign or digits. -/
theorem intToGoStr_chars (i : Int) : ∀ c ∈ intToGoStr i, c = '-' ∨ c ∈ digitChars := by
  unfold intToGoStr
  split
  · intro c hc
    rcases List.mem_cons.mp hc with h | h
    · exact Or.inl h
    · exact Or.inr (natToRev_chars _ c (List.mem_reverse.mp h))
  · split
    · intro c hc
      simp at hc
      subst hc
      exact Or.inr (by simp [digitChars])
    · intro c hc
      exact Or.inr (natToRev_chars _ c (List.mem_reverse.mp hc))

/-- `strconv.Atoi` inverts `%d` rendering for every value in the `int64`
range. -/
theorem goAtoi_intToGoStr (i : Int) (hlo : -9223372036854775808 ≤ i)
    (hhi : i ≤ 9223372036854775807) : goAtoi (intToGoStr i) = some i := by
  unfold intToGoStr
  by_cases hneg : i < 0
  · have habs : -((i.natAbs : Int)) = i := by omega
    have hn0 : i.natAbs ≠ 0 := by
      intro h
      have := Int.natAbs_eq_zero.mp h
      omega
    have hle : i.natAbs ≤ 9223372036854775808 := by omega
    simp only [hneg, if_true]
    unfold goAtoi
    norm_num
    rw [parseDigits_natToRev i.natAbs hn0]
    simp only [hle, if_true]
    rw [habs]
    norm_num
    intro hbad
    exact absurd hbad (by decide)
  · by_cases hz : i = 0
    · subst hz
      rfl
    · have hpos : 0 < i := by omega
      simp only [hneg, if_false, hz, if_false]
      have hn0 : i.natAbs ≠ 0 := by
        intro h
        have := Int.natAbs_eq_zero.mp h
        omega
      have hne : natToRev i.natAbs ≠ [] := by
        rw [natToRev_eq _ hn0]; simp
      obtain ⟨c, rest, hcr⟩ : ∃ c rest, (natToRev i.natAbs).reverse = c :: rest := by
        cases hrev : (natToRev i.natAbs).reverse with
        | nil =>
          exfalso
          have := congrArg List.reverse hrev
          simp at this
          exact hne this
        | cons c rest => exact ⟨c, rest, rfl⟩
      rw [hcr]
      have hcmem : c ∈ digitChars := by
        have : c ∈ (natToRev i.natAbs).reverse := by rw [hcr]; simp
        exact natToRev_chars _ c (List.mem_reverse.mp this)
      have hcplus : c ≠ '+' := by
        intro h; subst h; revert hcmem; decide
      have hcminus : c ≠ '-' := by
        intro h; subst h; revert hcmem; decide
      unfold goAtoi
      simp only [hcplus, if_false, hcminus]
      rw [← hcr, parseDigits_natToRev i.natAbs hn0]
      have hle : i.natAbs ≤ 9223372036854775807 := by omega
      simp only [hle, if_true]
      congr 1
      omega

/-! ### Unfolding equations for the budgeted loops -/

theorem between_of_goIndex_none (value a b : GoStr) (h : goIndex value b = none) :
    between value a b = [] := by
  have := betweenF_eq_between value a b (value.length + 1) (by omega)
  simp only [betweenF, h] at this
  exact (Option.some.inj this).symm

theorem between_of_goLastIndex_none (value a b : GoStr) (posLast : Nat)
    (h1 : goIndex value b = some posLast)
    (h2 : goLastIndex (value.take posLast) a = none) :
    between value a b = [] := by
  have := betweenF_eq_between value a b (value.length + 1) (by omega)
  simp only [betweenF, h1, h2] at this
  exact (Option.some.inj this).symm

theorem between_of_adjacent (value a b : GoStr) (posLast posFirst : Nat)
    (h1 : goIndex value b = some posLast)
    (h2 : goLastIndex (value.take posLast) a = some posFirst)
    (h3 : posFirst + a.length ≥ posLast) :
    between value a b = [] := by
  have := betweenF_eq_between value a b (value.length + 1) (by omega)
  simp only [betweenF, h1, h2] at this
  rw [if_pos h3] at this
  exact (Option.some.inj this).symm

theorem between_step (value a b : GoStr) (posLast posFirst : Nat)
    (h1 : goIndex value b = some posLast)
    (h2 : goLastIndex (value.take posLast) a = some posFirst)
    (h3 : posFirst + a.length < posLast) :
    between value a b =
      ((value.take posLast).drop (posFirst + a.length)) ::
        between (value.drop (posLast + 1)) a b := by
  have hbound := goIndex_le value b posLast h1
  have hlen : (value.drop (posLast + 1)).length = value.length - (posLast + 1) := by
    simp [List.length_drop]
  have hrec := betweenF_eq_between (value.drop (posLast + 1)) a b
    (value.length) (by omega)
  have := betweenF_eq_between value a b (value.length + 1) (by omega)
  simp only [betweenF, h1, h2] at this
  rw [if_neg (by omega)] at this
  rw [hrec] at this
  simp only [Option.map_some'] at this
  exact (Option.some.inj this).symm

theorem goSplit_of_goIndex_none (s sep : GoStr) (hsep : sep ≠ [])
    (h : goIndex s sep = none) : goSplit s sep = [s] := by
  have := goSplitF_eq_goSplit s sep (s.length + 1) hsep (by omega)
  simp only [goSplitF, h] at this
  exact (Option.some.inj this).symm

theorem goSplit_step (s sep : GoStr) (i : Nat) (hsep : sep ≠ [])
    (h : goIndex s sep = some i) :
    goSplit s sep = s.take i :: goSplit (s.drop (i + sep.length)) sep := by
  have hbound := goIndex_le s sep i h
  have hseplen : 1 ≤ sep.length := List.length_pos.mpr hsep
  have hlen : (s.drop (i + sep.length)).length = s.length - (i + sep.length) := by
    simp [List.length_drop]
  have hrec := goSplitF_eq_goSplit (s.drop (i + sep.length)) sep s.length hsep (by omega)
  have := goSplitF_eq_goSplit s sep (s.length + 1) hsep (by omega)
  simp only [goSplitF, h] at this
  rw [hrec] at this
  simp only [Option.map_some'] at this
  exact (Option.some.inj this).symm

theorem goSplitAfter_of_goIndex_none (s sep : GoStr) (hsep : sep ≠ [])
    (h : goIndex s sep = none) : goSplitAfter s sep = [s] := by
  have := goSplitAfterF_eq s sep (s.length + 1) hsep (by omega)
  simp only [goSplitAfterF, h] at this
  exact (Option.some.inj this).symm

theorem goSplitAfter_step (s sep : GoStr) (i : Nat) (hsep : sep ≠ [])
    (h : goIndex s sep = some i) :
    goSplitAfter s sep =
      s.take (i + sep.length) :: goSplitAfter (s.drop (i + sep.length)) sep := by
  have hbound := goIndex_le s sep i h
  have hseplen : 1 ≤ sep.length := List.length_pos.mpr hsep
  have hlen : (s.drop (i + sep.length)).length = s.length - (i + sep.length) := by
    simp [List.length_drop]
  have hrec := goSplitAfterF_eq (s.drop (i + sep.length)) sep s.length hsep (by omega)
  have := goSplitAfterF_eq s sep (s.length + 1) hsep (by omega)
  simp only [goSplitAfterF, h] at this
  rw [hrec] at this
  simp only [Option.map_some'] at this
  exact (Option.some.inj this).symm

/-- `goSplitAfter` never returns the empty list. -/
theorem goSplitAfter_ne_nil (s sep : GoStr) (hsep : sep ≠ []) :
    goSplitAfter s sep ≠ [] := by
  cases h : goIndex s sep with
  | none => rw [goSplitAfter_of_goIndex_none s sep hsep h]; simp
  | some i => rw [goSplitAfter_step s sep i hsep h]; simp

/-! ## The config codec (`internal/manager/proxy.go`) -/

/-- `"http"` -/
def httpStr : GoStr := ['h', 't', 't', 'p']
/-- `"http2"` -/
def http2Str : GoStr := ['h', 't', 't', 'p', '2']
/-- `"tcp"` -/
def tcpStr : GoStr := ['t', 'c', 'p']
/-- `"=>"` -/
def arrowStr : GoStr := ['=', '>']
/-- `"=>amqp:"` -/
def amqpSepStr : GoStr := ['=', '>', 'a', 'm', 'q', 'p', ':']

/-- `ioclient.PublicPort`: the (protocol, queue, port) triple exchanged with
the Controller. -/
structure PublicPort where
  protocol : GoStr
  queue : GoStr
  port : Int
deriving DecidableEq, Repr

/-- The engine's cache `portMap = map[int]ioclient.PublicPort`, keyed by
`port`; every write is `cache[p.Port] = p`, so the key always equals the
entry's `port` field.  Go map iteration order is unspecified; the model fixes
insertion order. -/
abbrev portMap := List PublicPort

/-- Go map lookup `m[k]`. -/
def mapLookup (m : portMap) (k : Int) : Option PublicPort :=
  m.find? (fun p => p.port == k)

/-- Go map write `m[v.Port] = v`. -/
def mapInsert (m : portMap) (v : PublicPort) : portMap :=
  if m.any (fun p => p.port == v.port) then
    m.map (fun p => if p.port == v.port then v else p)
  else m ++ [v]

/-- `createProxyString(port)`:
`fmt.Sprintf("%s:%d=>amqp:%s", port.Protocol, port.Port, port.Queue)`. -/
def createProxyString (p : PublicPort) : GoStr :=
  p.protocol ++ [':'] ++ intToGoStr p.port ++ amqpSepStr ++ p.queue

/-- `createProxyConfig(ports)`: the comma-joined config string, one
`createProxyString` item per cache entry, no separator before the first. -/
def createProxyConfig (ports : portMap) : GoStr :=
  ports.foldl
    (fun config p =>
      config ++ (if config.isEmpty then [] else [',']) ++ createProxyString p)
    []

/-- `decodeMicroservice(configItem)`: parse one `{protocol}:{port}=>amqp:{queue}`
item; `none` is Go's non-nil error. -/
def decodeMicroservice (configItem : GoStr) : Option PublicPort :=
  let protocol := goBefore configItem [':']
  if protocol ≠ httpStr ∧ protocol ≠ http2Str ∧ protocol ≠ tcpStr then none
  else
    match between configItem (protocol ++ [':']) arrowStr with
    | [portStr] =>
      match goAtoi portStr with
      | none => none
      | some port =>
        match goSplitAfter configItem amqpSepStr with
        | [_, queue] => some ⟨protocol, queue, port⟩
        | _ => none
    | _ => none

/-- The decode loop of `Manager.generateCache`: split the Deployment's config
argument on `","`, decode every item, abort on the first decode error, and
populate the cache with `cache[port.Port] = *port`. -/
def cacheFromConfig (config : GoStr) : Option portMap :=
  (goSplit config [',']).foldlM
    (fun cache item => (decodeMicroservice item).map (fun p => mapInsert cache p))
    ([] : portMap)

/-! ## Validity of a PublicPort (data-model §3) -/

/-- The three protocols the codec accepts. -/
def validProtocol (p : GoStr) : Prop := p = httpStr ∨ p = http2Str ∨ p = tcpStr

instance (p : GoStr) : Decidable (validProtocol p) := by
  unfold validProtocol; infer_instance

/-- A valid PublicPort: recognised protocol; nonempty queue free of the
delimiter substrings `","`, `":"` and `"=>"`; port a Go `int` (64-bit). -/
def validPort (p : PublicPort) : Prop :=
  validProtocol p.protocol ∧
  p.queue ≠ [] ∧
  ',' ∉ p.queue ∧
  ':' ∉ p.queue ∧
  containsSub p.queue arrowStr = false ∧
  -9223372036854775808 ≤ p.port ∧ p.port ≤ 9223372036854775807

instance (p : PublicPort) : Decidable (validPort p) := by
  unfold validPort; infer_instance

theorem not_occurs_of_containsSub (s pat : GoStr) (hpat : pat ≠ [])
    (h : containsSub s pat = false) : ∀ k, ¬ occursAt s pat k := by
  intro k hk
  unfold containsSub at h
  rw [List.any_eq_false] at h
  by_cases hkl : k ≤ s.length
  · have hmem : k ∈ List.range (s.length + 1) := List.mem_range.mpr (by omega)
    have := h k hmem
    simp at this
    exact this hk
  · push_neg at hkl
    unfold occursAt at hk
    rw [List.drop_eq_nil_of_le (by omega)] at hk
    exact hpat (List.prefix_nil.mp hk)

/-! ## Round-trip of one config item -/

theorem occursAt_getElem (s pat : GoStr) (k m : Nat) (h : occursAt s pat k)
    (hm : m < pat.length) : s[k + m]? = pat[m]? := by
  unfold occursAt at h
  obtain ⟨u, hu⟩ := h
  have hk : k < s.length := by
    by_contra hkl
    push_neg at hkl
    rw [List.drop_eq_nil_of_le (by omega)] at hu
    have : pat = [] := by
      cases pat with
      | nil => rfl
      | cons c cs => simp at hu
    subst this
    simp at hm
  have hs : s = s.take k ++ (pat ++ u) := by
    conv_lhs => rw [← List.take_append_drop k s]
    rw [← hu]
  conv_lhs => rw [hs]
  rw [List.getElem?_append_right (by simp [List.length_take])]
  have hlt : k + m - (s.take k).length = m := by
    simp [List.length_take]
    omega
  rw [hlt, List.getElem?_append_left hm]

/-- First occurrence of a pattern `c :: cs` prefixing `y`, when `c` does not
appear in `x`. -/
theorem goIndex_boundary (x y pat : GoStr) (c : Char) (cs : GoStr)
    (hpat : pat = c :: cs) (hc : c ∉ x) (hpre : pat <+: y) :
    goIndex (x ++ y) pat = some x.length := by
  apply goIndex_eq_of
  · exact occursAt_append_of_prefix x y pat hpre
  · intro k hk hocc
    subst hpat
    exact hc (mem_of_occursAt_lt x y c cs k hk hocc)

theorem intToGoStr_ne_nil (i : Int) : intToGoStr i ≠ [] := by
  unfold intToGoStr
  split
  · simp
  · split
    · simp
    next h1 h2 =>
      have hn0 : i.natAbs ≠ 0 := by
        intro h
        have := Int.natAbs_eq_zero.mp h
        exact h2 this
      rw [natToRev_eq _ hn0]
      simp

theorem intToGoStr_not_mem (i : Int) (c : Char) (h1 : c ≠ '-')
    (h2 : c ∉ digitChars) : c ∉ intToGoStr i := by
  intro hc
  rcases intToGoStr_chars i c hc with h | h
  · exact h1 h
  · exact h2 h

theorem validProtocol_not_colon (p : GoStr) (hp : validProtocol p) : ':' ∉ p := by
  rcases hp with rfl | rfl | rfl <;> decide

theorem validProtocol_not_eq_char (p : GoStr) (hp : validProtocol p) : '=' ∉ p := by
  rcases hp with rfl | rfl | rfl <;> decide

theorem validProtocol_not_comma (p : GoStr) (hp : validProtocol p) : ',' ∉ p := by
  rcases hp with rfl | rfl | rfl <;> decide

/-- Decoding inverts encoding on every single valid config item. -/
theorem decodeMicroservice_createProxyString (p : PublicPort) (hv : validPort p) :
    decodeMicroservice (createProxyString p) = some p := by
  obtain ⟨hproto, hqne, hqcomma, hqcolon, hqarrow, hlo, hhi⟩ := hv
  have harrne : arrowStr ≠ [] := by decide
  have hqarrow' := not_occurs_of_containsSub p.queue arrowStr harrne hqarrow
  have hps_ne : intToGoStr p.port ≠ [] := intToGoStr_ne_nil p.port
  have hps_colon : ':' ∉ intToGoStr p.port :=
    intToGoStr_not_mem _ _ (by decide) (by decide)
  have hps_eq : '=' ∉ intToGoStr p.port :=
    intToGoStr_not_mem _ _ (by decide) (by decide)
  have hproto_colon := validProtocol_not_colon p.protocol hproto
  have hproto_eq := validProtocol_not_eq_char p.protocol hproto
  -- the item, grouped two ways
  have hitem1 : createProxyString p =
      p.protocol ++ (':' :: (intToGoStr p.port ++ (amqpSepStr ++ p.queue))) := by
    unfold createProxyString
    simp
  have hitem2 : createProxyString p =
      (p.protocol ++ [':'] ++ intToGoStr p.port) ++ (amqpSepStr ++ p.queue) := by
    unfold createProxyString
    simp
  have hxlen : (p.protocol ++ [':'] ++ intToGoStr p.port).length
      = p.protocol.length + 1 + (intToGoStr p.port).length := by simp; omega
  have hx_eqchar : '=' ∉ (p.protocol ++ [':'] ++ intToGoStr p.port) := by
    intro hc
    rcases List.mem_append.mp hc with hc | hc
    · rcases List.mem_append.mp hc with hc | hc
      · exact hproto_eq hc
      · simp at hc
    · exact hps_eq hc
  -- (A) the first ':' sits right after the protocol
  have hidx_colon : goIndex (createProxyString p) [':'] = some p.protocol.length := by
    rw [hitem1]
    exact goIndex_boundary _ _ _ ':' [] rfl hproto_colon ⟨_, rfl⟩
  -- (B) goBefore extracts the protocol
  have hbefore : goBefore (createProxyString p) [':'] = p.protocol := by
    unfold goBefore
    rw [hidx_colon, hitem1]
    exact List.take_left' rfl
  -- (D) the first "=>" sits right after the port digits
  have hidx_arrow : goIndex (createProxyString p) arrowStr
      = some (p.protocol ++ [':'] ++ intToGoStr p.port).length := by
    rw [hitem2]
    apply goIndex_boundary _ _ _ '=' ['>'] rfl hx_eqchar
    exact ⟨['a', 'm', 'q', 'p', ':'] ++ p.queue, by simp [amqpSepStr, arrowStr]⟩
  -- (D') so does the first "=>amqp:"
  have hidx_amqp : goIndex (createProxyString p) amqpSepStr
      = some (p.protocol ++ [':'] ++ intToGoStr p.port).length := by
    rw [hitem2]
    apply goIndex_boundary _ _ _ '=' ['>', 'a', 'm', 'q', 'p', ':'] rfl hx_eqchar
    exact List.prefix_append _ _
  -- the prefix cut at the arrow
  have htake : (createProxyString p).take (p.protocol ++ [':'] ++ intToGoStr p.port).length
      = p.protocol ++ [':'] ++ intToGoStr p.port := by
    rw [hitem2]
    exact List.take_left' rfl
  -- (E) the last occurrence of "{protocol}:" in that prefix is at 0
  have hlast : goLastIndex (p.protocol ++ [':'] ++ intToGoStr p.port)
      (p.protocol ++ [':']) = some 0 := by
    have hx : p.protocol ++ [':'] ++ intToGoStr p.port
        = p.protocol ++ (':' :: intToGoStr p.port) := by simp
    have huniq : ∀ j, (p.protocol ++ ':' :: intToGoStr p.port)[j]? = some ':' →
        j = p.protocol.length := by
      intro j hj
      rcases Nat.lt_trichotomy j p.protocol.length with hlt | heq | hgt
      · rw [List.getElem?_append_left hlt] at hj
        exact absurd (List.getElem?_mem hj) hproto_colon
      · exact heq
      · rw [List.getElem?_append_right (by omega)] at hj
        have hpos : 1 ≤ j - p.protocol.length := by omega
        cases hd : j - p.protocol.length with
        | zero => omega
        | succ m =>
          rw [hd] at hj
          simp at hj
          exact absurd (List.getElem?_mem hj) hps_colon
    apply goLastIndex_eq_of
    · exact Nat.zero_le _
    · show (p.protocol ++ [':']) <+: _
      rw [List.drop_zero, hx]
      exact ⟨intToGoStr p.port, by simp⟩
    · intro k hk0 hklen hocc
      have hm : p.protocol.length < (p.protocol ++ [':']).length := by simp
      have := occursAt_getElem _ _ k p.protocol.length hocc hm
      rw [List.getElem?_append_right (le_refl p.protocol.length)] at this
      simp at this
      have := huniq (k + p.protocol.length) this
      omega
  -- (F) `between` returns exactly the port digits
  have hdrop_arrow : (createProxyString p).drop
      ((p.protocol ++ [':'] ++ intToGoStr p.port).length + 1)
      = ['>', 'a', 'm', 'q', 'p', ':'] ++ p.queue := by
    rw [hitem2, ← List.drop_drop, List.drop_left]
    simp [amqpSepStr]
  have hnoarrow_tail : goIndex (['>', 'a', 'm', 'q', 'p', ':'] ++ p.queue) arrowStr
      = none := by
    apply goIndex_eq_none
    intro k hk
    by_cases hk6 : k < 6
    · have : '=' ∈ (['>', 'a', 'm', 'q', 'p', ':'] : GoStr) := by
        apply mem_of_occursAt_lt _ p.queue '=' ['>'] k (by simpa using hk6)
        exact hk
      simp at this
    · push_neg at hk6
      have hkk : k = (['>', 'a', 'm', 'q', 'p', ':'] : GoStr).length + (k - 6) := by
        simp; omega
      rw [hkk] at hk
      rw [occursAt_append_right] at hk
      exact hqarrow' (k - 6) hk
  have hbetween : between (createProxyString p) (p.protocol ++ [':']) arrowStr
      = [intToGoStr p.port] := by
    rw [between_step (createProxyString p) (p.protocol ++ [':']) arrowStr
      (p.protocol ++ [':'] ++ intToGoStr p.port).length 0 hidx_arrow
      (by rw [htake]; exact hlast)
      (by simp [hxlen]; exact List.length_pos.mpr hps_ne)]
    rw [htake, hdrop_arrow]
    rw [between_of_goIndex_none _ _ _ hnoarrow_tail]
    congr 1
    have : (0 : Nat) + (p.protocol ++ [':']).length = p.protocol.length + 1 := by simp
    rw [this]
    have hx : p.protocol ++ [':'] ++ intToGoStr p.port
        = (p.protocol ++ [':']) ++ intToGoStr p.port := by simp
    rw [hx]
    exact List.drop_left' (by simp)
  -- (H) SplitAfter cuts exactly at "=>amqp:"
  have hdrop_amqp : (createProxyString p).drop
      ((p.protocol ++ [':'] ++ intToGoStr p.port).length + amqpSepStr.length)
      = p.queue := by
    rw [hitem2, ← List.drop_drop, List.drop_left]
    exact List.drop_left' rfl
  have hnoamqp_q : goIndex p.queue amqpSepStr = none := by
    apply goIndex_eq_none
    intro k hk
    have : occursAt p.queue arrowStr k :=
      occursAt_of_prefix _ _ _ k hk ⟨['a', 'm', 'q', 'p', ':'], rfl⟩
    exact hqarrow' k this
  have hsplitafter : goSplitAfter (createProxyString p) amqpSepStr
      = [(createProxyString p).take
          ((p.protocol ++ [':'] ++ intToGoStr p.port).length + amqpSepStr.length),
         p.queue] := by
    rw [goSplitAfter_step (createProxyString p) amqpSepStr
      (p.protocol ++ [':'] ++ intToGoStr p.port).length (by decide) hidx_amqp]
    rw [hdrop_amqp]
    rw [goSplitAfter_of_goIndex_none _ _ (by decide) hnoamqp_q]
  -- (G) Atoi inverts the rendering
  have hatoi : goAtoi (intToGoStr p.port) = some p.port := goAtoi_intToGoStr p.port hlo hhi
  -- assemble
  have hcond : ¬ (p.protocol ≠ httpStr ∧ p.protocol ≠ http2Str ∧ p.protocol ≠ tcpStr) := by
    rcases hproto with h | h | h <;> simp [h]
  simp only [decodeMicroservice, hbefore]
  rw [if_neg hcond, hbetween]
  simp only [hatoi]
  rw [hsplitafter]

/-! ## Round-trip of the whole config string -/

/-- `","`-tail of a join: `",s1,s2,…"`. -/
def commaTail (items : List GoStr) : GoStr :=
  items.foldr (fun s r => ',' :: (s ++ r)) []

/-- Comma-join of a list of items, no leading or trailing separator. -/
def joinComma : List GoStr → GoStr
  | [] => []
  | x :: rest => x ++ commaTail rest

theorem createProxyConfig_foldl (ports : portMap) :
    ∀ acc : GoStr, acc ≠ [] →
      ports.foldl
        (fun config p =>
          config ++ (if config.isEmpty then [] else [',']) ++ createProxyString p)
        acc
      = acc ++ commaTail (ports.map createProxyString) := by
  induction ports with
  | nil => intro acc hacc; simp [commaTail]
  | cons p ps ih =>
    intro acc hacc
    have hemp : acc.isEmpty = false := by
      cases acc with
      | nil => exact absurd rfl hacc
      | cons c t => rfl
    simp only [List.foldl_cons, hemp, Bool.false_eq_true, if_false]
    rw [ih (acc ++ [','] ++ createProxyString p) (by simp)]
    simp [commaTail]

/-- `createProxyConfig` is the comma-join of the per-entry items. -/
theorem createProxyConfig_eq_joinComma (ports : portMap) :
    createProxyConfig ports = joinComma (ports.map createProxyString) := by
  cases ports with
  | nil => rfl
  | cons p ps =>
    unfold createProxyConfig
    simp only [List.foldl_cons, List.isEmpty_nil, if_true, List.nil_append]
    rw [createProxyConfig_foldl ps (createProxyString p)
      (by unfold createProxyString; simp)]
    rfl

/-- Splitting a comma-join on `","` recovers the items, when no item contains
a comma. -/
theorem goSplit_joinComma :
    ∀ (items : List GoStr), items ≠ [] → (∀ s ∈ items, ',' ∉ s) →
      goSplit (joinComma items) [','] = items := by
  intro items
  induction items with
  | nil => intro h; exact absurd rfl h
  | cons x rest ih =>
    intro _ hfree
    cases rest with
    | nil =>
      have hx : ',' ∉ x := hfree x (by simp)
      have : goIndex (joinComma [x]) [','] = none := by
        apply goIndex_eq_none
        intro k hk
        unfold joinComma commaTail at hk
        simp only [List.foldr_nil, List.append_nil] at hk
        by_cases hkx : k < x.length
        · have : ',' ∈ x := by
            have h2 : occursAt (x ++ ([] : GoStr)) (',' :: []) k := by
              simpa using hk
            exact mem_of_occursAt_lt x [] ',' [] k hkx h2
          exact hx this
        · push_neg at hkx
          unfold occursAt at hk
          rw [List.drop_eq_nil_of_le (by omega)] at hk
          simp at hk
      unfold joinComma commaTail
      simp only [List.foldr_nil, List.append_nil]
      rw [goSplit_of_goIndex_none _ _ (by decide)
        (by unfold joinComma commaTail at this; simpa using this)]
    | cons y xs =>
      have hx : ',' ∉ x := hfree x (by simp)
      have hjoin : joinComma (x :: y :: xs) = x ++ (',' :: joinComma (y :: xs)) := by
        unfold joinComma commaTail
        simp
      have hidx : goIndex (joinComma (x :: y :: xs)) [','] = some x.length := by
        rw [hjoin]
        exact goIndex_boundary _ _ _ ',' [] rfl hx ⟨_, rfl⟩
      rw [goSplit_step _ _ x.length (by decide) hidx]
      have htake : (joinComma (x :: y :: xs)).take x.length = x := by
        rw [hjoin]
        exact List.take_left' rfl
      have hdrop : (joinComma (x :: y :: xs)).drop (x.length + ([','] : GoStr).length)
          = joinComma (y :: xs) := by
        rw [hjoin, ← List.drop_drop, List.drop_left]
        rfl
      rw [htake, hdrop, ih (by simp) (by intro s hs; exact hfree s (by simp [hs]))]

/-- A valid entry's config item contains no comma. -/
theorem createProxyString_no_comma (p : PublicPort) (hv : validPort p) :
    ',' ∉ createProxyString p := by
  obtain ⟨hproto, _, hqcomma, _, _, _, _⟩ := hv
  intro hc
  unfold createProxyString at hc
  rcases List.mem_append.mp hc with hc | hc
  · rcases List.mem_append.mp hc with hc | hc
    · rcases List.mem_append.mp hc with hc | hc
      · rcases List.mem_append.mp hc with hc | hc
        · exact validProtocol_not_comma p.protocol hproto hc
        · simp at hc
      · exact intToGoStr_not_mem p.port ',' (by decide) (by decide) hc
    · revert hc; decide
  · exact hqcomma hc

/-- Decoding a list of valid encoded items recovers the entries in order. -/
theorem mapM_decode_map (ports : portMap) (hv : ∀ p ∈ ports, validPort p) :
    (ports.map createProxyString).mapM decodeMicroservice = some ports := by
  induction ports with
  | nil => rfl
  | cons p ps ih =>
    simp only [List.map_cons, List.mapM_cons]
    rw [decodeMicroservice_createProxyString p (hv p (by simp))]
    rw [ih (by intro q hq; exact hv q (by simp [hq]))]
    rfl

/-! ## Claim theorems: the codec -/

/-- C1 (amended).  Round-trip of the config codec for **non-empty** snapshots:
for every non-empty cache snapshot containing only valid PublicPorts,
splitting `createProxyConfig C` on `","` and decoding each item with
`decodeMicroservice` succeeds and yields exactly the entries of `C` (in
order, hence as a set of (protocol, port, queue) triples).  The empty case of
the original claim fails (see the counterexample): the empty config splits
into one empty item, which the decoder rejects. -/
theorem claim1_roundtrip (C : portMap) (hne : C ≠ []) (hv : ∀ p ∈ C, validPort p) :
    (goSplit (createProxyConfig C) [',']).mapM decodeMicroservice = some C := by
  rw [createProxyConfig_eq_joinComma]
  rw [goSplit_joinComma (C.map createProxyString) (by simpa using hne)
    (by
      intro s hs
      obtain ⟨p, hp, rfl⟩ := List.mem_map.mp hs
      exact createProxyString_no_comma p (hv p hp))]
  exact mapM_decode_map C hv

/-- Witness for C1: the round-trip theorem applied to the concrete snapshot
`{80 ↦ (tcp, "q1")}`. -/
theorem claim1_roundtrip_witness :
    (goSplit (createProxyConfig [⟨tcpStr, ['q', '1'], 80⟩]) [',']).mapM
        decodeMicroservice
      = some [⟨tcpStr, ['q', '1'], 80⟩] :=
  claim1_roundtrip [⟨tcpStr, ['q', '1'], 80⟩] (by decide) (by decide)

/-- C1 (counterexample to the claim as stated).  For the empty snapshot the
encoded config is `""`, Go `strings.Split("", ",")` yields the single item
`""`, and `decodeMicroservice` rejects it — so `decode(encode(∅))` errors
instead of yielding the empty set. -/
theorem claim1_empty_counterexample :
    createProxyConfig ([] : portMap) = [] ∧
    goSplit (createProxyConfig ([] : portMap)) [','] = [[]] ∧
    (goSplit (createProxyConfig ([] : portMap)) [',']).mapM decodeMicroservice
      = none := by decide

/-- C9.  `between` terminates on every input: the loop returns within
`len(value) + 1` iterations (the `Option`-valued `betweenF` yields `some`),
and every continuing iteration finds the end delimiter `b` at a position of
at least 1 and strictly shortens `value`. -/
theorem claim9_between_terminates (value a b : GoStr) :
    (∃ r, betweenF (value.length + 1) value a b = some r ∧ between value a b = r) ∧
    (∀ posLast posFirst, goIndex value b = some posLast →
      goLastIndex (value.take posLast) a = some posFirst →
      posFirst + a.length < posLast →
      1 ≤ posLast ∧ (value.drop (posLast + 1)).length < value.length) := by
  constructor
  · obtain ⟨r, hr⟩ := Option.isSome_iff_exists.mp
      (betweenF_isSome value.length value a b (value.length + 1) le_rfl (by omega))
    refine ⟨r, hr, ?_⟩
    unfold between
    rw [hr]
    rfl
  · intro posLast posFirst hidx _ hlt
    have hb := goIndex_le value b posLast hidx
    constructor
    · omega
    · simp only [List.length_drop]
      omega

/-- Witness for C9: one continuing iteration on the item
`"tcp:80=>amqp:q"` with `a = "tcp:"`, `b = "=>"`, which finds `b` at
position 6 and shortens the string. -/
theorem claim9_witness :
    1 ≤ 6 ∧
      ((['t', 'c', 'p', ':', '8', '0', '=', '>', 'a', 'm', 'q', 'p', ':', 'q'] :
          GoStr).drop 7).length
        < (['t', 'c', 'p', ':', '8', '0', '=', '>', 'a', 'm', 'q', 'p', ':', 'q'] :
            GoStr).length :=
  (claim9_between_terminates
    ['t', 'c', 'p', ':', '8', '0', '=', '>', 'a', 'm', 'q', 'p', ':', 'q']
    ['t', 'c', 'p', ':'] ['=', '>']).2 6 0 (by decide) (by decide) (by decide)

/-- C10.  An item ending exactly in `"=>amqp:"` decodes successfully with an
empty queue — a PublicPort the data model declares invalid — and the startup
cache rebuild (`generateCache`) inserts it into the cache. -/
theorem claim10_decoder_accepts_empty_queue :
    decodeMicroservice ['t', 'c', 'p', ':', '8', '0', '=', '>', 'a', 'm', 'q', 'p', ':']
        = some ⟨tcpStr, [], 80⟩ ∧
    ¬ validPort (⟨tcpStr, [], (80 : Int)⟩ : PublicPort) ∧
    cacheFromConfig ['t', 'c', 'p', ':', '8', '0', '=', '>', 'a', 'm', 'q', 'p', ':']
        = some [⟨tcpStr, [], 80⟩] := by decide

theorem decodeMicroservice_eq (configItem : GoStr) :
    decodeMicroservice configItem =
      (if goBefore configItem [':'] ≠ httpStr ∧ goBefore configItem [':'] ≠ http2Str ∧
          goBefore configItem [':'] ≠ tcpStr then none
       else
        match between configItem (goBefore configItem [':'] ++ [':']) arrowStr with
        | [portStr] =>
          match goAtoi portStr with
          | none => none
          | some port =>
            match goSplitAfter configItem amqpSepStr with
            | [_, queue] => some ⟨goBefore configItem [':'], queue, port⟩
            | _ => none
        | _ => none) := rfl

theorem goSplitAfter_pair (s sep x y : GoStr) (hsep : sep ≠ [])
    (h : goSplitAfter s sep = [x, y]) :
    ∃ i, goIndex s sep = some i ∧ x = s.take (i + sep.length) ∧
      y = s.drop (i + sep.length) := by
  cases hidx : goIndex s sep with
  | none =>
    rw [goSplitAfter_of_goIndex_none s sep hsep hidx] at h
    simp at h
  | some i =>
    rw [goSplitAfter_step s sep i hsep hidx] at h
    have h1 : s.take (i + sep.length) = x := by
      injection h
    have h2 : goSplitAfter (s.drop (i + sep.length)) sep = [y] := by
      injection h with _ h2
    refine ⟨i, rfl, h1.symm, ?_⟩
    cases hidx2 : goIndex (s.drop (i + sep.length)) sep with
    | none =>
      rw [goSplitAfter_of_goIndex_none _ _ hsep hidx2] at h2
      injection h2 with h3
      exact h3.symm
    | some i2 =>
      rw [goSplitAfter_step _ _ i2 hsep hidx2] at h2
      injection h2 with _ h4
      exact absurd h4 (goSplitAfter_ne_nil _ _ hsep)

theorem goSplitAfter_decomp (s sep x y : GoStr) (hsep : sep ≠ [])
    (h : goSplitAfter s sep = [x, y]) :
    ∃ t, s = t ++ sep ++ y ∧ ∀ j < t.length, ¬ occursAt s sep j := by
  obtain ⟨i, hidx, hx, hy⟩ := goSplitAfter_pair s sep x y hsep h
  obtain ⟨hocc, hfirst⟩ := goIndex_eq_some s sep i hidx
  have hile := goIndex_le s sep i hidx
  obtain ⟨u, hu⟩ := hocc
  have hudrop : s.drop (i + sep.length) = u := by
    rw [← List.drop_drop, ← hu, List.drop_left]
  refine ⟨s.take i, ?_, ?_⟩
  · conv_lhs => rw [← List.take_append_drop i s]
    rw [← hu, hy, hudrop, List.append_assoc]
  · intro j hj
    have : j < i := by
      rw [List.length_take] at hj
      omega
    exact hfirst j this

/-- C2.  The decoder rejects exactly on a bad protocol prefix, a port
substring between `{protocol}:` and `=>` that is absent or duplicated, a port
that Go `Atoi` rejects, or a split-after on `=>amqp:` that does not produce
exactly two pieces; on success the protocol is the prefix before the first
`:` and the queue is taken verbatim as everything after the first `=>amqp:`
to the end of the item. -/
theorem claim2_decoder_conditions (configItem : GoStr) :
    (decodeMicroservice configItem = none ↔
      ¬ validProtocol (goBefore configItem [':']) ∨
      (between configItem (goBefore configItem [':'] ++ [':']) arrowStr).length ≠ 1 ∨
      (∃ s, between configItem (goBefore configItem [':'] ++ [':']) arrowStr = [s] ∧
        goAtoi s = none) ∨
      (goSplitAfter configItem amqpSepStr).length ≠ 2) ∧
    (∀ pp, decodeMicroservice configItem = some pp →
      pp.protocol = goBefore configItem [':'] ∧
      (∃ s, between configItem (pp.protocol ++ [':']) arrowStr = [s] ∧
        goAtoi s = some pp.port) ∧
      ∃ t, configItem = t ++ amqpSepStr ++ pp.queue ∧
        ∀ j < t.length, ¬ occursAt configItem amqpSepStr j) := by
  rw [decodeMicroservice_eq]
  by_cases hcond : goBefore configItem [':'] ≠ httpStr ∧
      goBefore configItem [':'] ≠ http2Str ∧ goBefore configItem [':'] ≠ tcpStr
  · rw [if_pos hcond]
    refine ⟨⟨fun _ => Or.inl ?_, fun _ => rfl⟩, ?_⟩
    · intro hv
      rcases hv with h | h | h
      exacts [hcond.1 h, hcond.2.1 h, hcond.2.2 h]
    · intro pp h
      exact absurd h (by simp)
  · have hvalid : validProtocol (goBefore configItem [':']) := by
      by_contra hnv
      exact hcond ⟨fun he => hnv (Or.inl he), fun he => hnv (Or.inr (Or.inl he)),
        fun he => hnv (Or.inr (Or.inr he))⟩
    rw [if_neg hcond]
    cases hbet : between configItem (goBefore configItem [':'] ++ [':']) arrowStr with
    | nil =>
      refine ⟨⟨fun _ => Or.inr (Or.inl (by simp)), fun _ => rfl⟩, ?_⟩
      intro pp h
      simp at h
    | cons s rest =>
      cases rest with
      | cons b t2 =>
        refine ⟨⟨fun _ => Or.inr (Or.inl ?_), fun _ => rfl⟩, ?_⟩
        · simp only [List.length_cons]
          omega
        · intro pp h
          simp at h
      | nil =>
        have hred : (match [s] with
            | [portStr] =>
              match goAtoi portStr with
              | none => none
              | some port =>
                match goSplitAfter configItem amqpSepStr with
                | [_, queue] => some (⟨goBefore configItem [':'], queue, port⟩ : PublicPort)
                | _ => none
            | _ => none)
          = (match goAtoi s with
              | none => none
              | some port =>
                match goSplitAfter configItem amqpSepStr with
                | [_, queue] => some (⟨goBefore configItem [':'], queue, port⟩ : PublicPort)
                | _ => none) := rfl
        rw [hred]
        cases hatoi : goAtoi s with
        | none =>
          refine ⟨⟨fun _ => Or.inr (Or.inr (Or.inl ⟨s, rfl, hatoi⟩)), fun _ => rfl⟩, ?_⟩
          intro pp h
          simp at h
        | some port =>
          have hred2 : (match some port with
              | none => (none : Option PublicPort)
              | some port =>
                match goSplitAfter configItem amqpSepStr with
                | [_, queue] => some (⟨goBefore configItem [':'], queue, port⟩ : PublicPort)
                | _ => none)
            = (match goSplitAfter configItem amqpSepStr with
                | [_, queue] => some (⟨goBefore configItem [':'], queue, port⟩ : PublicPort)
                | _ => none) := rfl
          rw [hred2]
          cases hsp : goSplitAfter configItem amqpSepStr with
          | nil => exact absurd hsp (goSplitAfter_ne_nil _ _ (by decide))
          | cons x rest =>
            cases rest with
            | nil =>
              refine ⟨⟨fun _ => Or.inr (Or.inr (Or.inr (by simp))), fun _ => rfl⟩, ?_⟩
              intro pp h
              simp at h
            | cons y rest2 =>
              cases rest2 with
              | cons z rest3 =>
                refine ⟨⟨fun _ => Or.inr (Or.inr (Or.inr ?_)), fun _ => rfl⟩, ?_⟩
                · simp only [List.length_cons]
                  omega
                · intro pp h
                  simp at h
              | nil =>
                constructor
                · constructor
                  · intro h
                    simp at h
                  · intro hrhs
                    exfalso
                    rcases hrhs with h | h | h | h
                    · exact h hvalid
                    · exact h (by simp)
                    · obtain ⟨s', hs', hat⟩ := h
                      have hss : s = s' := by
                        injection hs'
                      rw [← hss, hatoi] at hat
                      simp at hat
                    · exact h (by simp)
                · intro pp h
                  have hpp : pp = ⟨goBefore configItem [':'], y, port⟩ :=
                    (Option.some.inj h).symm
                  subst hpp
                  refine ⟨rfl, ⟨s, hbet, hatoi⟩, ?_⟩
                  obtain ⟨t, ht, hocc⟩ :=
                    goSplitAfter_decomp configItem amqpSepStr x y (by decide) hsp
                  exact ⟨t, ht, hocc⟩

/-- Witness for C2: the success-shape conjunct applied to the concrete item
`"tcp:80=>amqp:q1"`. -/
theorem claim2_witness :
    (⟨tcpStr, ['q', '1'], (80 : Int)⟩ : PublicPort).protocol
        = goBefore ['t', 'c', 'p', ':', '8', '0', '=', '>', 'a', 'm', 'q', 'p', ':', 'q', '1'] [':'] ∧
    (∃ s, between ['t', 'c', 'p', ':', '8', '0', '=', '>', 'a', 'm', 'q', 'p', ':', 'q', '1']
        ((⟨tcpStr, ['q', '1'], (80 : Int)⟩ : PublicPort).protocol ++ [':']) arrowStr = [s] ∧
      goAtoi s = some (⟨tcpStr, ['q', '1'], (80 : Int)⟩ : PublicPort).port) ∧
    ∃ t, ['t', 'c', 'p', ':', '8', '0', '=', '>', 'a', 'm', 'q', 'p', ':', 'q', '1']
        = t ++ amqpSepStr ++ (⟨tcpStr, ['q', '1'], (80 : Int)⟩ : PublicPort).queue ∧
      ∀ j < t.length,
        ¬ occursAt ['t', 'c', 'p', ':', '8', '0', '=', '>', 'a', 'm', 'q', 'p', ':', 'q', '1']
          amqpSepStr j :=
  (claim2_decoder_conditions
    ['t', 'c', 'p', ':', '8', '0', '=', '>', 'a', 'm', 'q', 'p', ':', 'q', '1']).2
    ⟨tcpStr, ['q', '1'], 80⟩ (by decide)


/-! ## The reconciliation engine (`Manager` of `src/unnamed/part_004`)

The Kubernetes API is abstracted by an environment `K8sEnv` fixing, for one
tick, the outcome of each Get (found / not-found / other error) and the
success of each write; every attempted API call is recorded in a trace
together with its success flag. -/

/-- The engine's OwnerReference (`mgr.owner`), discovered at init. -/
structure Owner where
  name : GoStr
  uid : GoStr
deriving DecidableEq, Repr

/-- The proxy Deployment, reduced to the fields the engine reads or writes:
identity data, whether the pod spec has a container, the container's `Args`,
and the owner references. -/
structure Deployment where
  namespaceName : GoStr
  image : GoStr
  replicas : Int
  routerHost : GoStr
  hasContainers : Bool
  args : List GoStr
  owners : List Owner
deriving DecidableEq, Repr

/-- `"node"` -/
def nodeStr : GoStr := ['n', 'o', 'd', 'e']
/-- `"/opt/app-root/bin/simple.js"` -/
def simpleJsStr : GoStr :=
  ['/', 'o', 'p', 't', '/', 'a', 'p', 'p', '-', 'r', 'o', 'o', 't',
   '/', 'b', 'i', 'n', '/', 's', 'i', 'm', 'p', 'l', 'e', '.', 'j', 's']

/-- `getProxyContainerArgs(config)`. -/
def getProxyContainerArgs (config : GoStr) : List GoStr :=
  [nodeStr, simpleJsStr, config]

/-- `newProxyDeployment(namespace, image, replicas, config, routerHost)`. -/
def newProxyDeployment (namespaceName image : GoStr) (replicas : Int)
    (config routerHost : GoStr) : Deployment :=
  ⟨namespaceName, image, replicas, routerHost, true, getProxyContainerArgs config, []⟩

/-- `checkProxyDeployment(dep)`: `true` iff the Deployment has a container and
its argument vector has exactly `len(getProxyContainerArgs(""))` = 3 entries. -/
def checkProxyDeployment (d : Deployment) : Bool :=
  if !d.hasContainers then false
  else if d.args.length ≠ (getProxyContainerArgs []).length then false
  else true

/-- `getProxyConfig(dep)`: the last argument, or an error. -/
def getProxyConfig (d : Deployment) : Option GoStr :=
  if checkProxyDeployment d then
    some (d.args.getD ((getProxyContainerArgs []).length - 1) [])
  else none

/-- `updateProxyConfig(dep, config)`: write the last argument in place. -/
def updateProxyConfig (d : Deployment) (config : GoStr) : Option Deployment :=
  if checkProxyDeployment d then
    some { d with args := d.args.set ((getProxyContainerArgs []).length - 1) config }
  else none

/-- One Kubernetes Service port (`corev1.ServicePort`). -/
structure ServicePort where
  name : GoStr
  port : Int
  targetPort : Int
  protocol : GoStr
deriving DecidableEq, Repr

/-- `strings.ToLower` (ASCII). -/
def toLowerStr (s : GoStr) : GoStr := s.map Char.toLower

/-- `generateServicePort(port, queue)`: name is the lowercased queue, L4
protocol is always TCP. -/
def generateServicePort (port : Int) (queue : GoStr) : ServicePort :=
  ⟨toLowerStr queue, port, port, ['T', 'C', 'P']⟩

/-- The proxy Service, reduced to the fields the engine reads or writes. -/
structure Service where
  namespaceName : GoStr
  svcType : GoStr
  trafficPolicy : GoStr
  loadBalancerIP : GoStr
  ports : List ServicePort
  owners : List Owner
deriving DecidableEq, Repr

/-- `getTrafficPolicy(serviceType)`. -/
def getTrafficPolicy (serviceType : GoStr) : GoStr :=
  if serviceType = ['L', 'o', 'a', 'd', 'B', 'a', 'l', 'a', 'n', 'c', 'e', 'r'] then
    ['L', 'o', 'c', 'a', 'l']
  else ['C', 'l', 'u', 's', 't', 'e', 'r']

/-- `newProxyService(namespace, ports, svcType, ip)`: one Service port per
cache entry. -/
def newProxyService (namespaceName : GoStr) (ports : portMap) (svcType ip : GoStr) :
    Service :=
  ⟨namespaceName, svcType, getTrafficPolicy svcType, ip,
    ports.map (fun port => generateServicePort port.port port.queue), []⟩

/-- One attempted Kubernetes API call (or registrar-channel send). -/
inductive K8sOp where
  | getDep
  | updateDep (d : Deployment)
  | createDep (d : Deployment)
  | deleteDep
  | getSvc
  | updateSvc (s : Service)
  | createSvc (s : Service)
  | deleteSvc
  | sendAddress
deriving DecidableEq, Repr

/-- Outcome of a Kubernetes `Get`. -/
inductive GetRes (α : Type) where
  | found (a : α)
  | notFound
  | err
deriving DecidableEq, Repr

/-- The Kubernetes API's behaviour during one tick. -/
structure K8sEnv where
  depGet : GetRes Deployment
  depWriteOk : Bool
  svcGet : GetRes Service
  svcWriteOk : Bool
deriving DecidableEq, Repr

/-- The per-instance options consumed by `Manager.updateProxy`. -/
structure ManagerOpts where
  namespaceName : GoStr
  proxyImage : GoStr
  routerAddress : GoStr
  proxyServiceType : GoStr
  proxyAddress : GoStr
  owner : Owner
deriving DecidableEq, Repr

/-- `Manager.updateProxyDeployment(foundDep)`: delete when the new config is
empty, otherwise rewrite the last argument and update.  Returns the Go error
as a success flag, plus the attempted calls. -/
def updateProxyDeployment (cache : portMap) (foundDep : Deployment) (env : K8sEnv) :
    Bool × List (K8sOp × Bool) :=
  let config := createProxyConfig cache
  if config.length = 0 then
    (env.depWriteOk, [(K8sOp.deleteDep, env.depWriteOk)])
  else
    match updateProxyConfig foundDep config with
    | none => (false, [])
    | some dep => (env.depWriteOk, [(K8sOp.updateDep dep, env.depWriteOk)])

/-- `Manager.updateProxyService(foundSvc)`: rebuild the port list from the
cache in place; delete the Service instead of updating it to zero ports. -/
def updateProxyService (cache : portMap) (foundSvc : Service) (env : K8sEnv) :
    Bool × List (K8sOp × Bool) :=
  let newPorts := cache.map (fun port => generateServicePort port.port port.queue)
  if newPorts.length = 0 then
    (env.svcWriteOk, [(K8sOp.deleteSvc, env.svcWriteOk)])
  else
    (env.svcWriteOk,
     [(K8sOp.updateSvc { foundSvc with ports := newPorts }, env.svcWriteOk)])

/-- The Deployment branch of `Manager.updateProxy`: Get, then update (via
`updateProxyDeployment`) when found, create a fresh owned Deployment when
not found, abort on any other Get error. -/
def updateProxyDepBranch (opt : ManagerOpts) (cache : portMap) (env : K8sEnv) :
    Bool × List (K8sOp × Bool) :=
  match env.depGet with
  | GetRes.found dep =>
    let r := updateProxyDeployment cache dep env
    (r.1, (K8sOp.getDep, true) :: r.2)
  | GetRes.notFound =>
    let dep := { newProxyDeployment opt.namespaceName opt.proxyImage 1
      (createProxyConfig cache) opt.routerAddress with owners := [opt.owner] }
    (env.depWriteOk, [(K8sOp.getDep, true), (K8sOp.createDep dep, env.depWriteOk)])
  | GetRes.err => (false, [(K8sOp.getDep, false)])

/-- The Service branch of `Manager.updateProxy`: Get, then update (via
`updateProxyService`) when found; when not found, create a fresh owned
Service and signal the address registrar. -/
def updateProxySvcBranch (opt : ManagerOpts) (cache : portMap) (env : K8sEnv) :
    Bool × List (K8sOp × Bool) :=
  match env.svcGet with
  | GetRes.found svc =>
    let r := updateProxyService cache svc env
    (r.1, (K8sOp.getSvc, true) :: r.2)
  | GetRes.notFound =>
    let svc := { newProxyService opt.namespaceName cache opt.proxyServiceType
      opt.proxyAddress with owners := [opt.owner] }
    if env.svcWriteOk then
      (true, [(K8sOp.getSvc, true), (K8sOp.createSvc svc, true),
              (K8sOp.sendAddress, true)])
    else (false, [(K8sOp.getSvc, true), (K8sOp.createSvc svc, false)])
  | GetRes.err => (false, [(K8sOp.getSvc, false)])

/-- `Manager.updateProxy`: Deployment branch, then — only if it returned no
error — the Service branch. -/
def updateProxy (opt : ManagerOpts) (cache : portMap) (env : K8sEnv) :
    Bool × List (K8sOp × Bool) :=
  let depPart := updateProxyDepBranch opt cache env
  if !depPart.1 then depPart
  else
    let svcPart := updateProxySvcBranch opt cache env
    (svcPart.1, depPart.2 ++ svcPart.2)

/-- One upward-diff step of `Manager.run`: insert a fetched port that is
absent from the cache, overwrite one whose queue or protocol changed. -/
def upwardStep (cache : portMap) (newPort : PublicPort) : portMap :=
  match mapLookup cache newPort.port with
  | some existingPort =>
    if existingPort.queue ≠ newPort.queue ∨ existingPort.protocol ≠ newPort.protocol then
      mapInsert cache newPort
    else cache
  | none => mapInsert cache newPort

/-- One upward-diff step of `Manager.run` threading the `cacheReconciled`
flag. -/
def upwardStepFlag (st : portMap × Bool) (newPort : PublicPort) : portMap × Bool :=
  match mapLookup st.1 newPort.port with
  | some existingPort =>
    if existingPort.queue ≠ newPort.queue ∨
        existingPort.protocol ≠ newPort.protocol then
      (mapInsert st.1 newPort, true)
    else st
  | none => (mapInsert st.1 newPort, true)

/-- The upward-diff loop of `Manager.run`. -/
def runDiffUpward (cache : portMap) (backendPorts : List PublicPort) : portMap × Bool :=
  backendPorts.foldl upwardStepFlag (cache, false)

/-- Membership in the `backendPortMap` built by `Manager.run`. -/
def backendHasPort (backendPorts : List PublicPort) (port : Int) : Bool :=
  backendPorts.any (fun bp => bp.port == port)

/-- The downward-diff loop of `Manager.run`: delete every cached port absent
from the fetched set, flagging `cacheReconciled` when anything was deleted. -/
def runDiffDownward (cache : portMap) (backendPorts : List PublicPort) :
    portMap × Bool :=
  (cache.filter (fun e => backendHasPort backendPorts e.port),
   cache.any (fun e => !backendHasPort backendPorts e.port))

/-- One reconciliation tick (`Manager.run`): fetch (`none` = Controller list
error), upward diff, downward diff, and — only if the cache was reconciled —
`updateProxy`.  Returns the new cache, the success flag, and the trace of
attempted Kubernetes calls. -/
def runTick (opt : ManagerOpts) (cache : portMap)
    (fetch : Option (List PublicPort)) (env : K8sEnv) :
    portMap × Bool × List (K8sOp × Bool) :=
  match fetch with
  | none => (cache, false, [])
  | some backendPorts =>
    let up := runDiffUpward cache backendPorts
    let down := runDiffDownward up.1 backendPorts
    if up.2 || down.2 then
      let r := updateProxy opt down.1 env
      (down.1, r.1, r.2)
    else (down.1, true, [])

/-! ## The address registrar (`Manager.registerProxyAddress`) -/

/-- Outcome of one registrar loop iteration. -/
structure RegistrarOutcome where
  /-- address successfully registered with the Controller this iteration -/
  registered : Option GoStr
  /-- `some payload` when a retry signal was queued on `addressChan`;
  every send in the source is `mgr.addressChan <- nil`, so the payload of a
  queued signal is always `none` — it carries no address. -/
  requeuedSignal : Option (Option GoStr)
  /-- the address passed to `PutDefaultProxy`, if the call was reached -/
  putTried : Option GoStr
deriving DecidableEq, Repr

/-- One iteration of `Manager.registerProxyAddress` after receiving a signal:
resolve the Service address via `WaitForLoadBalancer` (`lbResult`, `none`
meaning error or timeout), then attempt `PutDefaultProxy`; on either failure,
sleep and requeue `nil`. -/
def registrarStep (lbResult : Option GoStr) (putOk : Bool) : RegistrarOutcome :=
  match lbResult with
  | none => ⟨none, some none, none⟩
  | some ip =>
    if putOk then ⟨some ip, none, some ip⟩
    else ⟨none, some none, some ip⟩

/-- A sequence of registrar iterations.  The loop carries no state between
iterations, so a run is the pointwise image of its per-attempt outcomes. -/
def registrarRun (attempts : List (Option GoStr × Bool)) : List RegistrarOutcome :=
  attempts.map (fun a => registrarStep a.1 a.2)

/-! ## The protocol filter (spec §4.4, modelled) -/

/-- Go `strings.EqualFold` (ASCII case folding). -/
def equalFold (a b : GoStr) : Bool := a.map Char.toLower == b.map Char.toLower

/-- Modelled from the spec: the protocol-filter step of the reconciliation
tick.  The filtering `Manager.run` (v3) is not under `src/` — only its
caller, which sets `Options.ProtocolFilter`, is — so this step follows
spec §4.4: "Apply the protocol filter: if non-empty, retain only entries
whose protocol case-insensitively equals the filter." -/
def filterBackendPorts (filt : GoStr) (backendPorts : List PublicPort) :
    List PublicPort :=
  if filt.isEmpty then backendPorts
  else backendPorts.filter (fun p => equalFold p.protocol filt)

/-- Modelled from the spec: a reconciliation tick of an engine instance
constructed with a protocol filter — the fetched list is filtered before the
diff. -/
def runTickFiltered (opt : ManagerOpts) (filt : GoStr) (cache : portMap)
    (fetch : Option (List PublicPort)) (env : K8sEnv) :
    portMap × Bool × List (K8sOp × Bool) :=
  runTick opt cache (fetch.map (filterBackendPorts filt)) env


/-! ### Lemmas about the cache map operations -/

theorem mapLookup_nil (k : Int) : mapLookup [] k = none := rfl

theorem lookup_mapreplace (m : portMap) (v : PublicPort) (p : Int) (hp : p ≠ v.port) :
    mapLookup (m.map (fun e => if e.port == v.port then v else e)) p = mapLookup m p := by
  induction m with
  | nil => rfl
  | cons x m ih =>
    by_cases hx : x.port = v.port
    · simp only [List.map_cons, mapLookup, List.find?_cons, hx]
      have h1 : (v.port == p) = false := by simp; omega
      have h2 : (x.port == p) = false := by simp [hx]; omega
      simp only [beq_self_eq_true, if_true, h1, h2]
      exact ih
    · simp only [List.map_cons, mapLookup, List.find?_cons]
      have h2 : (x.port == v.port) = false := by simp [hx]
      simp only [h2, Bool.false_eq_true, if_false]
      cases hxp : (x.port == p) with
      | true => rfl
      | false => exact ih

theorem lookup_mapreplace_self (m : portMap) (v : PublicPort)
    (h : m.any (fun e => e.port == v.port) = true) :
    mapLookup (m.map (fun e => if e.port == v.port then v else e)) v.port = some v := by
  induction m with
  | nil => simp at h
  | cons x m ih =>
    by_cases hx : x.port = v.port
    · simp only [List.map_cons, mapLookup, List.find?_cons, hx, beq_self_eq_true, if_true]
    · simp only [List.any_cons] at h
      have h2 : (x.port == v.port) = false := by simp [hx]
      rw [h2] at h
      simp only [Bool.false_or] at h
      simp only [List.map_cons, mapLookup, List.find?_cons, h2, Bool.false_eq_true, if_false]
      exact ih h

theorem mapLookup_mapInsert (m : portMap) (v : PublicPort) (p : Int) :
    mapLookup (mapInsert m v) p = if p = v.port then some v else mapLookup m p := by
  unfold mapInsert
  cases hany : m.any (fun e => e.port == v.port) with
  | true =>
    simp only [if_true]
    by_cases hp : p = v.port
    · subst hp
      rw [if_pos rfl]
      exact lookup_mapreplace_self m v hany
    · rw [if_neg hp]
      exact lookup_mapreplace m v p hp
  | false =>
    simp only [Bool.false_eq_true, if_false]
    induction m with
    | nil =>
      by_cases hp : p = v.port
      · subst hp
        simp [mapLookup]
      · simp only [List.nil_append]
        simp [mapLookup, hp]
        intro h
        omega
    | cons x m ih =>
      simp only [List.any_cons, Bool.or_eq_false_iff] at hany
      simp only [List.cons_append, mapLookup, List.find?_cons]
      cases hxp : (x.port == p) with
      | true =>
        have : (x.port == p) = true := hxp
        by_cases hp : p = v.port
        · subst hp
          simp at this
          rw [this] at hany
          simp at hany
        · rw [if_neg hp]
      | false =>
        have := ih hany.2
        by_cases hp : p = v.port
        · rw [if_pos hp] at this ⊢
          exact this
        · rw [if_neg hp] at this ⊢
          simp only [mapLookup, List.find?_cons, hxp] at this ⊢
          exact this


/-! ### Lemmas about the diff loops -/

theorem upwardStepFlag_fst (st : portMap × Bool) (f : PublicPort) :
    (upwardStepFlag st f).1 = upwardStep st.1 f := by
  unfold upwardStepFlag upwardStep
  cases mapLookup st.1 f.port with
  | none => rfl
  | some e =>
    by_cases h : e.queue ≠ f.queue ∨ e.protocol ≠ f.protocol
    · simp [h]
    · simp [h]

theorem runDiffUpward_fst :
    ∀ (R : List PublicPort) (cache : portMap) (d : Bool),
      (R.foldl upwardStepFlag (cache, d)).1 = R.foldl upwardStep cache := by
  intro R
  induction R with
  | nil => intro cache d; rfl
  | cons f rest ih =>
    intro cache d
    simp only [List.foldl_cons]
    have h1 : upwardStepFlag (cache, d) f
        = ((upwardStepFlag (cache, d) f).1, (upwardStepFlag (cache, d) f).2) := rfl
    rw [h1, ih, upwardStepFlag_fst]

theorem upward_preserve :
    ∀ (R : List PublicPort) (cache : portMap) (p : Int),
      (∀ g ∈ R, g.port ≠ p) →
      mapLookup (R.foldl upwardStep cache) p = mapLookup cache p := by
  intro R
  induction R with
  | nil => intro cache p _; rfl
  | cons g rest ih =>
    intro cache p h
    simp only [List.foldl_cons]
    rw [ih _ p (by intro r hr; exact h r (by simp [hr]))]
    unfold upwardStep
    cases hl : mapLookup cache g.port with
    | none =>
      show mapLookup (mapInsert cache g) p = mapLookup cache p
      rw [mapLookup_mapInsert]
      rw [if_neg (by intro he; exact h g (by simp) he.symm)]
    | some e =>
      show mapLookup
          (if e.queue ≠ g.queue ∨ e.protocol ≠ g.protocol then mapInsert cache g
           else cache) p = mapLookup cache p
      by_cases hd : e.queue ≠ g.queue ∨ e.protocol ≠ g.protocol
      · rw [if_pos hd, mapLookup_mapInsert]
        rw [if_neg (by intro he; exact h g (by simp) he.symm)]
      · rw [if_neg hd]

theorem upward_lookup_exists :
    ∀ (R : List PublicPort) (cache : portMap) (f : PublicPort),
      (R.map (fun e => e.port)).Nodup → f ∈ R →
      ∃ v, mapLookup (R.foldl upwardStep cache) f.port = some v ∧
        v.queue = f.queue ∧ v.protocol = f.protocol := by
  intro R
  induction R with
  | nil => intro cache f _ hf; simp at hf
  | cons g rest ih =>
    intro cache f hnd hf
    simp only [List.map_cons, List.nodup_cons] at hnd
    obtain ⟨hg, hndr⟩ := hnd
    rcases List.mem_cons.mp hf with rfl | hf
    · simp only [List.foldl_cons]
      rw [upward_preserve rest (upwardStep cache f) f.port
        (by
          intro r hr he
          exact hg (by rw [← he]; exact List.mem_map_of_mem _ hr))]
      unfold upwardStep
      cases hl : mapLookup cache f.port with
      | none =>
        show ∃ v, mapLookup (mapInsert cache f) f.port = some v ∧
          v.queue = f.queue ∧ v.protocol = f.protocol
        refine ⟨f, ?_, rfl, rfl⟩
        rw [mapLookup_mapInsert, if_pos rfl]
      | some e =>
        show ∃ v, mapLookup
            (if e.queue ≠ f.queue ∨ e.protocol ≠ f.protocol then mapInsert cache f
             else cache) f.port = some v ∧ v.queue = f.queue ∧ v.protocol = f.protocol
        by_cases hd : e.queue ≠ f.queue ∨ e.protocol ≠ f.protocol
        · rw [if_pos hd]
          refine ⟨f, ?_, rfl, rfl⟩
          rw [mapLookup_mapInsert, if_pos rfl]
        · rw [if_neg hd]
          push_neg at hd
          exact ⟨e, hl, hd.1, hd.2⟩
    · simp only [List.foldl_cons]
      exact ih (upwardStep cache g) f hndr hf

theorem upward_lookup_char :
    ∀ (R : List PublicPort) (cache : portMap) (p : Int) (v : PublicPort),
      mapLookup (R.foldl upwardStep cache) p = some v →
      (v ∈ R ∧ v.port = p) ∨
      (mapLookup cache p = some v ∧
        ∀ f ∈ R, f.port = p → f.queue = v.queue ∧ f.protocol = v.protocol) := by
  intro R
  induction R with
  | nil =>
    intro cache p v h
    right
    exact ⟨h, by intro f hf; simp at hf⟩
  | cons g rest ih =>
    intro cache p v h
    simp only [List.foldl_cons] at h
    rcases ih (upwardStep cache g) p v h with ⟨h1, h2⟩ | ⟨h1, h2⟩
    · exact Or.inl ⟨List.mem_cons_of_mem g h1, h2⟩
    · unfold upwardStep at h1
      cases hl : mapLookup cache g.port with
      | none =>
        rw [hl] at h1
        have h1' : mapLookup (mapInsert cache g) p = some v := h1
        rw [mapLookup_mapInsert] at h1'
        by_cases hp : p = g.port
        · rw [if_pos hp] at h1'
          have hv : v = g := (Option.some.inj h1').symm
          exact Or.inl ⟨by simp [hv], by rw [hv, hp]⟩
        · rw [if_neg hp] at h1'
          refine Or.inr ⟨h1', ?_⟩
          intro f hf hfp
          rcases List.mem_cons.mp hf with rfl | hf
          · exact absurd hfp (by intro he; exact hp he.symm)
          · exact h2 f hf hfp
      | some e =>
        rw [hl] at h1
        have h1m : mapLookup
            (if e.queue ≠ g.queue ∨ e.protocol ≠ g.protocol then mapInsert cache g
             else cache) p = some v := h1
        by_cases hd : e.queue ≠ g.queue ∨ e.protocol ≠ g.protocol
        · have h1' : mapLookup (mapInsert cache g) p = some v := by
            rw [if_pos hd] at h1m
            exact h1m
          rw [mapLookup_mapInsert] at h1'
          by_cases hp : p = g.port
          · rw [if_pos hp] at h1'
            have hv : v = g := (Option.some.inj h1').symm
            exact Or.inl ⟨by simp [hv], by rw [hv, hp]⟩
          · rw [if_neg hp] at h1'
            refine Or.inr ⟨h1', ?_⟩
            intro f hf hfp
            rcases List.mem_cons.mp hf with rfl | hf
            · exact absurd hfp (by intro he; exact hp he.symm)
            · exact h2 f hf hfp
        · have h1' : mapLookup cache p = some v := by
            rw [if_neg hd] at h1m
            exact h1m
          push_neg at hd
          refine Or.inr ⟨h1', ?_⟩
          intro f hf hfp
          rcases List.mem_cons.mp hf with rfl | hf
          · have hlp : mapLookup cache p = some e := by
              rw [hfp] at hl
              exact hl
            have hev : e = v := Option.some.inj (hlp.symm.trans h1')
            rw [← hev]
            exact ⟨hd.1.symm ▸ rfl, hd.2.symm ▸ rfl⟩
          · exact h2 f hf hfp

theorem upward_clean :
    ∀ (R : List PublicPort) (cache : portMap) (d : Bool),
      (∀ f ∈ R, ∃ e, mapLookup cache f.port = some e ∧
        e.queue = f.queue ∧ e.protocol = f.protocol) →
      R.foldl upwardStepFlag (cache, d) = (cache, d) := by
  intro R
  induction R with
  | nil => intro cache d _; rfl
  | cons f rest ih =>
    intro cache d h
    obtain ⟨e, hl, hq, hp⟩ := h f (by simp)
    simp only [List.foldl_cons]
    have hstep : upwardStepFlag (cache, d) f = (cache, d) := by
      unfold upwardStepFlag
      simp only [hl]
      rw [if_neg (by push_neg; exact ⟨hq, hp⟩)]
    rw [hstep]
    exact ih cache d (by intro g hg; exact h g (by simp [hg]))


theorem mapLookup_filter_backend (m : portMap) (R : List PublicPort) (p : Int) :
    mapLookup (m.filter (fun e => backendHasPort R e.port)) p
      = if backendHasPort R p then mapLookup m p else none := by
  induction m with
  | nil => cases hb : backendHasPort R p <;> simp [mapLookup, hb]
  | cons x m ih =>
    simp only [List.filter_cons]
    by_cases hx : x.port = p
    · have hbeq : (x.port == p) = true := by simp [hx]
      have hxx : backendHasPort R x.port = backendHasPort R p := by rw [hx]
      rw [hxx]
      cases hb : backendHasPort R p with
      | true => simp [mapLookup, List.find?_cons, hbeq]
      | false =>
        simp only [Bool.false_eq_true, if_false]
        rw [ih, hb]
        simp
    · have hbeq : (x.port == p) = false := by simp [hx]
      have hcons : mapLookup (x :: m) p = mapLookup m p := by
        simp only [mapLookup, List.find?_cons, hbeq, Bool.false_eq_true, if_false]
      rw [hcons]
      cases hk : backendHasPort R x.port with
      | true =>
        simp only [if_true]
        have hcons2 : mapLookup (x :: List.filter (fun e => backendHasPort R e.port) m) p
            = mapLookup (List.filter (fun e => backendHasPort R e.port) m) p := by
          simp only [mapLookup, List.find?_cons, hbeq, Bool.false_eq_true, if_false]
        rw [hcons2, ih]
      | false =>
        simp only [Bool.false_eq_true, if_false]
        rw [ih]

theorem downward_clean (cache : portMap) (R : List PublicPort)
    (h : ∀ e ∈ cache, backendHasPort R e.port = true) :
    runDiffDownward cache R = (cache, false) := by
  unfold runDiffDownward
  rw [List.filter_eq_self.mpr h]
  have hany : cache.any (fun e => !backendHasPort R e.port) = false := by
    rw [List.any_eq_false]
    intro x hx
    simp [h x hx]
  rw [hany]

/-- The model invariant of the Go map: the cache never holds two entries with
the same port. -/
def portsNodup (m : portMap) : Prop := (m.map (fun e => e.port)).Nodup

theorem portsNodup_mapInsert (m : portMap) (v : PublicPort) (h : portsNodup m) :
    portsNodup (mapInsert m v) := by
  unfold mapInsert
  cases hany : m.any (fun e => e.port == v.port) with
  | true =>
    simp only [if_true]
    unfold portsNodup at h ⊢
    have : (m.map (fun e => if e.port == v.port then v else e)).map (fun e => e.port)
        = m.map (fun e => e.port) := by
      rw [List.map_map]
      apply List.map_congr_left
      intro e _
      by_cases he : e.port = v.port
      · simp [he]
      · simp [he]
    rw [this]
    exact h
  | false =>
    simp only [Bool.false_eq_true, if_false]
    unfold portsNodup at h ⊢
    rw [List.map_append, List.nodup_append]
    refine ⟨h, by simp, ?_⟩
    intro a ha hb
    simp at hb
    obtain ⟨e, he, hev⟩ := List.mem_map.mp ha
    rw [List.any_eq_false] at hany
    have := hany e he
    simp at this
    rw [hb] at hev
    exact this (by omega)

theorem portsNodup_upwardStep (cache : portMap) (f : PublicPort)
    (h : portsNodup cache) : portsNodup (upwardStep cache f) := by
  unfold upwardStep
  cases mapLookup cache f.port with
  | none => exact portsNodup_mapInsert cache f h
  | some e =>
    by_cases hd : e.queue ≠ f.queue ∨ e.protocol ≠ f.protocol
    · simp only [hd, if_true]
      exact portsNodup_mapInsert cache f h
    · simp only [hd, if_false]
      exact h

theorem portsNodup_upward :
    ∀ (R : List PublicPort) (cache : portMap), portsNodup cache →
      portsNodup (R.foldl upwardStep cache) := by
  intro R
  induction R with
  | nil => intro cache h; exact h
  | cons f rest ih =>
    intro cache h
    simp only [List.foldl_cons]
    exact ih _ (portsNodup_upwardStep cache f h)

theorem portsNodup_filter (m : portMap) (keepf : PublicPort → Bool)
    (h : portsNodup m) : portsNodup (m.filter keepf) := by
  unfold portsNodup at h ⊢
  exact ((List.filter_sublist m).map (fun e => e.port)).nodup h

theorem mapLookup_of_mem_nodup (m : portMap) (v : PublicPort)
    (h : portsNodup m) (hm : v ∈ m) : mapLookup m v.port = some v := by
  induction m with
  | nil => simp at hm
  | cons x m ih =>
    unfold portsNodup at h
    simp only [List.map_cons, List.nodup_cons] at h
    obtain ⟨hx, hnd⟩ := h
    rcases List.mem_cons.mp hm with rfl | hm
    · simp [mapLookup, List.find?_cons]
    · have hne : (x.port == v.port) = false := by
        simp
        intro he
        exact hx (by rw [he]; exact List.mem_map_of_mem _ hm)
      simp only [mapLookup, List.find?_cons, hne, Bool.false_eq_true, if_false]
      exact ih hnd hm


/-! ### Unfolding the tick -/

theorem runTick_some_eq (opt : ManagerOpts) (cache : portMap)
    (R : List PublicPort) (env : K8sEnv) :
    runTick opt cache (some R) env
      = (if (runDiffUpward cache R).2 || (runDiffDownward (runDiffUpward cache R).1 R).2
         then ((runDiffDownward (runDiffUpward cache R).1 R).1,
               (updateProxy opt (runDiffDownward (runDiffUpward cache R).1 R).1 env).1,
               (updateProxy opt (runDiffDownward (runDiffUpward cache R).1 R).1 env).2)
         else ((runDiffDownward (runDiffUpward cache R).1 R).1, true, [])) := rfl

theorem runTick_some_fst (opt : ManagerOpts) (cache : portMap)
    (R : List PublicPort) (env : K8sEnv) :
    (runTick opt cache (some R) env).1
      = (runDiffDownward (runDiffUpward cache R).1 R).1 := by
  rw [runTick_some_eq]
  split <;> rfl

/-! ### Concrete fixtures for witnesses and counterexamples -/

/-- A concrete OwnerReference. -/
def sampleOwner : Owner := ⟨['p', 'm'], ['u', '1']⟩

/-- Concrete per-instance options. -/
def sampleOpts : ManagerOpts :=
  ⟨['n', 's'], ['i', 'm', 'g'], ['r', 't', 'r'],
   ['L', 'o', 'a', 'd', 'B', 'a', 'l', 'a', 'n', 'c', 'e', 'r'], [], sampleOwner⟩

/-- A concrete http public port. -/
def samplePort80 : PublicPort := ⟨httpStr, ['q', '1'], 80⟩

/-- A concrete tcp public port. -/
def sampleTcp443 : PublicPort := ⟨tcpStr, ['q', '2'], 443⟩

/-- An environment where every Get reports not-found and every write
succeeds. -/
def envAllOk : K8sEnv := ⟨GetRes.notFound, true, GetRes.notFound, true⟩

/-- An environment where the Deployment Get fails with a non-not-found
error. -/
def envDepGetErr : K8sEnv := ⟨GetRes.err, true, GetRes.notFound, true⟩

/-- A concrete live proxy Deployment with a well-formed argument vector. -/
def sampleFoundDep : Deployment :=
  ⟨['n', 's'], ['i', 'm', 'g'], 1, ['r', 't', 'r'], true,
   [nodeStr, simpleJsStr, ['x']], []⟩

/-! ## Claim theorems: the reconciler -/

/-- C3 (counterexample to the claim as stated).  With an empty pre-tick cache
and the Controller advertising port 80, a tick whose Kubernetes Deployment
Get fails with a transient (non-not-found) error returns an error having
completed no Kubernetes write, yet the port-80 cache entry has changed from
absent to present — the cache is not left untouched for changes not yet
applied. -/
theorem claim3_counterexample :
    (runTick sampleOpts [] (some [samplePort80]) envDepGetErr).2.1 = false ∧
    (runTick sampleOpts [] (some [samplePort80]) envDepGetErr).2.2
      = [(K8sOp.getDep, false)] ∧
    mapLookup [] samplePort80.port = none ∧
    mapLookup (runTick sampleOpts [] (some [samplePort80]) envDepGetErr).1
        samplePort80.port = some samplePort80 := by decide

/-- C3 (amended).  What a failed tick actually guarantees: a Controller list
failure leaves the cache exactly unchanged (and performs no Kubernetes
call), while any failure inside Update-Proxy leaves the cache fully
reconciled to the fetched response — `Manager.run` applies both diff passes
to the cache before any Kubernetes write, and never rolls them back. -/
theorem claim3_failed_tick_cache (opt : ManagerOpts) (cache : portMap)
    (env : K8sEnv) :
    runTick opt cache none env = (cache, false, []) ∧
    ∀ R, (runTick opt cache (some R) env).1
        = (runDiffDownward (runDiffUpward cache R).1 R).1 := by
  exact ⟨rfl, fun R => runTick_some_fst opt cache R env⟩

/-- C4.  Idempotence: if the fetched response has pairwise-distinct ports
(the data model's uniqueness invariant) and a tick on it converges, a second
tick on the identical response performs no Kubernetes operation at all — the
`cacheReconciled` flag stays false, Update-Proxy is not invoked, and the
cache is unchanged. -/
theorem claim4_idempotent (opt : ManagerOpts) (cache : portMap)
    (R : List PublicPort) (env1 env2 : K8sEnv)
    (hnd : (R.map (fun e => e.port)).Nodup)
    (hok : (runTick opt cache (some R) env1).2.1 = true) :
    runTick opt (runTick opt cache (some R) env1).1 (some R) env2
      = ((runTick opt cache (some R) env1).1, true, []) := by
  have hc2 : (runTick opt cache (some R) env1).1
      = ((R.foldl upwardStep cache).filter (fun e => backendHasPort R e.port)) := by
    rw [runTick_some_fst]
    unfold runDiffDownward
    show ((runDiffUpward cache R).1.filter _) = _
    rw [show (runDiffUpward cache R).1 = R.foldl upwardStep cache from
      runDiffUpward_fst R cache false]
  set cache2 := (runTick opt cache (some R) env1).1 with hcache2
  have hP1 : ∀ f ∈ R, ∃ e, mapLookup cache2 f.port = some e ∧
      e.queue = f.queue ∧ e.protocol = f.protocol := by
    intro f hf
    obtain ⟨v, hv, hq, hp⟩ := upward_lookup_exists R cache f hnd hf
    refine ⟨v, ?_, hq, hp⟩
    rw [hc2, mapLookup_filter_backend]
    have hb : backendHasPort R f.port = true := by
      unfold backendHasPort
      rw [List.any_eq_true]
      exact ⟨f, hf, by simp⟩
    rw [hb, if_pos rfl]
    exact hv
  have hP2 : ∀ e ∈ cache2, backendHasPort R e.port = true := by
    intro e he
    rw [hc2] at he
    exact (List.mem_filter.mp he).2
  have hup : runDiffUpward cache2 R = (cache2, false) :=
    upward_clean R cache2 false hP1
  have hdown : runDiffDownward cache2 R = (cache2, false) :=
    downward_clean cache2 R hP2
  rw [runTick_some_eq, hup]
  simp only []
  rw [hdown]
  simp

/-- Witness for C4: two ticks on the same one-port response, the first from
an empty cache with all Kubernetes writes succeeding. -/
theorem claim4_witness :
    runTick sampleOpts (runTick sampleOpts [] (some [samplePort80]) envAllOk).1
        (some [samplePort80]) envAllOk
      = ((runTick sampleOpts [] (some [samplePort80]) envAllOk).1, true, []) :=
  claim4_idempotent sampleOpts [] [samplePort80] envAllOk envAllOk
    (by decide) (by decide)
/-! ### Membership in the Update-Proxy trace -/

theorem updateProxy_trace (opt : ManagerOpts) (cache : portMap) (env : K8sEnv) :
    (updateProxy opt cache env).2
      = (if (updateProxyDepBranch opt cache env).1
         then (updateProxyDepBranch opt cache env).2
             ++ (updateProxySvcBranch opt cache env).2
         else (updateProxyDepBranch opt cache env).2) := by
  unfold updateProxy
  cases h : (updateProxyDepBranch opt cache env).1 <;> simp [h]

theorem updateDep_not_in_svcBranch (opt : ManagerOpts) (cache : portMap)
    (env : K8sEnv) (d : Deployment) (b : Bool) :
    (K8sOp.updateDep d, b) ∉ (updateProxySvcBranch opt cache env).2 := by
  obtain ⟨dg, dw, sg, sw⟩ := env
  cases sg with
  | found svc =>
    simp only [updateProxySvcBranch, updateProxyService]
    split <;> simp
  | notFound =>
    simp only [updateProxySvcBranch]
    split <;> simp
  | err => simp [updateProxySvcBranch]

theorem updateSvc_not_in_depBranch (opt : ManagerOpts) (cache : portMap)
    (env : K8sEnv) (s : Service) (b : Bool) :
    (K8sOp.updateSvc s, b) ∉ (updateProxyDepBranch opt cache env).2 := by
  obtain ⟨dg, dw, sg, sw⟩ := env
  cases dg with
  | found dep =>
    simp only [updateProxyDepBranch, updateProxyDeployment]
    split
    · simp
    · split <;> simp
  | notFound => simp [updateProxyDepBranch]
  | err => simp [updateProxyDepBranch]

theorem updateSvc_in_svcBranch (opt : ManagerOpts) (cache : portMap)
    (env : K8sEnv) (s : Service) (b : Bool)
    (h : (K8sOp.updateSvc s, b) ∈ (updateProxySvcBranch opt cache env).2) :
    s.ports = cache.map (fun port => generateServicePort port.port port.queue) ∧
    cache ≠ [] := by
  obtain ⟨dg, dw, sg, sw⟩ := env
  cases sg with
  | found svc =>
    simp only [updateProxySvcBranch, updateProxyService] at h
    by_cases hl : (cache.map fun port => generateServicePort port.port port.queue).length = 0
    · rw [if_pos hl] at h
      simp at h
    · rw [if_neg hl] at h
      simp at h
      constructor
      · rw [h.1]
      · intro hc
        apply hl
        rw [hc]
        rfl
  | notFound =>
    simp only [updateProxySvcBranch] at h
    split at h <;> simp at h
  | err => simp [updateProxySvcBranch] at h
/-- C5 (counterexample to the claim as stated).  With the proxy Deployment
not found and an EMPTY cache, `updateProxy` still constructs and creates an
owned Deployment (with empty config) — there is no cache-non-empty guard, so
"no Deployment is created from an empty cache" is false. -/
theorem claim5_counterexample :
    createProxyConfig ([] : portMap) = [] ∧
    (updateProxy sampleOpts [] envAllOk).1 = true ∧
    (K8sOp.createDep
        { newProxyDeployment sampleOpts.namespaceName sampleOpts.proxyImage 1
            (createProxyConfig []) sampleOpts.routerAddress with
          owners := [sampleOpts.owner] }, true)
      ∈ (updateProxy sampleOpts [] envAllOk).2 := by decide

/-- C5 (amended).  The Deployment branch of `updateProxy` as implemented:
when the Deployment is found and the freshly computed config is empty it is
deleted, never updated; when it is not found a fresh Deployment stamped with
the OwnerReference is created UNCONDITIONALLY (even from an empty cache);
any other Get error aborts the branch before any write. -/
theorem claim5_deployment_branch (opt : ManagerOpts) (cache : portMap)
    (env : K8sEnv) :
    (∀ dep, env.depGet = GetRes.found dep → createProxyConfig cache = [] →
      (K8sOp.deleteDep, env.depWriteOk) ∈ (updateProxy opt cache env).2 ∧
      ∀ d b, (K8sOp.updateDep d, b) ∉ (updateProxy opt cache env).2) ∧
    (env.depGet = GetRes.notFound →
      (K8sOp.createDep
          { newProxyDeployment opt.namespaceName opt.proxyImage 1
              (createProxyConfig cache) opt.routerAddress with
            owners := [opt.owner] },
        env.depWriteOk) ∈ (updateProxy opt cache env).2) ∧
    (env.depGet = GetRes.err →
      (updateProxy opt cache env).1 = false ∧
      (updateProxy opt cache env).2 = [(K8sOp.getDep, false)]) := by
  obtain ⟨dg, dw, sg, sw⟩ := env
  refine ⟨?_, ?_, ?_⟩
  · intro dep hfound hcfg
    have hsg : dg = GetRes.found dep := hfound
    subst hsg
    have hlen : (createProxyConfig cache).length = 0 := by rw [hcfg]; rfl
    have hdep : updateProxyDepBranch opt cache ⟨GetRes.found dep, dw, sg, sw⟩
        = (dw, [(K8sOp.getDep, true), (K8sOp.deleteDep, dw)]) := by
      simp [updateProxyDepBranch, updateProxyDeployment, hlen]
    constructor
    · rw [updateProxy_trace, hdep]
      cases dw <;> simp
    · intro d b
      rw [updateProxy_trace, hdep]
      cases dw with
      | false =>
        simp
      | true =>
        simp only [if_pos]
        intro hmem
        rcases List.mem_append.mp hmem with h1 | h1
        · simp at h1
        · exact updateDep_not_in_svcBranch opt cache _ d b h1
  · intro hnf
    have hsg : dg = GetRes.notFound := hnf
    subst hsg
    have hdep : updateProxyDepBranch opt cache ⟨GetRes.notFound, dw, sg, sw⟩
        = (dw, [(K8sOp.getDep, true),
                (K8sOp.createDep
                  { newProxyDeployment opt.namespaceName opt.proxyImage 1
                      (createProxyConfig cache) opt.routerAddress with
                    owners := [opt.owner] }, dw)]) := by
      simp [updateProxyDepBranch]
    rw [updateProxy_trace, hdep]
    cases dw <;> simp
  · intro herr
    have hsg : dg = GetRes.err := herr
    subst hsg
    have hdep : updateProxyDepBranch opt cache ⟨GetRes.err, dw, sg, sw⟩
        = (false, [(K8sOp.getDep, false)]) := by
      simp [updateProxyDepBranch]
    have hall : updateProxy opt cache ⟨GetRes.err, dw, sg, sw⟩
        = (false, [(K8sOp.getDep, false)]) := by
      unfold updateProxy
      rw [hdep]
      simp
    exact ⟨by rw [hall], by rw [hall]⟩

/-- Witness for C5: Deployment not found, one-port cache — the owned
Deployment is created with the encoded config. -/
theorem claim5_witness :
    (K8sOp.createDep
        { newProxyDeployment sampleOpts.namespaceName sampleOpts.proxyImage 1
            (createProxyConfig [samplePort80]) sampleOpts.routerAddress with
          owners := [sampleOpts.owner] },
      envAllOk.depWriteOk) ∈ (updateProxy sampleOpts [samplePort80] envAllOk).2 :=
  (claim5_deployment_branch sampleOpts [samplePort80] envAllOk).2.1 rfl
/-- A concrete live proxy Service. -/
def sampleSvc : Service :=
  ⟨['n', 's'], sampleOpts.proxyServiceType, ['L', 'o', 'c', 'a', 'l'], [],
   [generateServicePort 80 ['q', '1']], []⟩

/-- An environment where both the Deployment and the Service are found. -/
def envSvcFound : K8sEnv :=
  ⟨GetRes.found sampleFoundDep, true, GetRes.found sampleSvc, true⟩

/-- C6 (counterexample to the claim as stated).  When the Service is not
found and the cache is empty, a converged `updateProxy` (it returns success)
CREATES a Service whose port list is empty — so after a converged tick the
proxy Service can exist with zero ports. -/
theorem claim6_counterexample :
    (updateProxy sampleOpts []
        ⟨GetRes.found sampleFoundDep, true, GetRes.notFound, true⟩).1 = true ∧
    (K8sOp.createSvc
        { newProxyService sampleOpts.namespaceName [] sampleOpts.proxyServiceType
            sampleOpts.proxyAddress with owners := [sampleOpts.owner] }, true)
      ∈ (updateProxy sampleOpts []
          ⟨GetRes.found sampleFoundDep, true, GetRes.notFound, true⟩).2 ∧
    ({ newProxyService sampleOpts.namespaceName [] sampleOpts.proxyServiceType
        sampleOpts.proxyAddress with owners := [sampleOpts.owner] } : Service).ports
      = [] := by decide

/-- C6 (amended).  What the Service branch actually guarantees: a Service is
never UPDATED to an empty port list (every `updateSvc` in the trace carries
the non-empty port list rebuilt from a non-empty cache), and when the
Service is found while the cache is empty it is deleted rather than
updated.  The zero-port protection does not extend to creation. -/
theorem claim6_service_branch (opt : ManagerOpts) (cache : portMap)
    (env : K8sEnv) :
    (∀ s b, (K8sOp.updateSvc s, b) ∈ (updateProxy opt cache env).2 →
      s.ports ≠ []) ∧
    (∀ svc, env.svcGet = GetRes.found svc → cache = [] →
      (updateProxyDepBranch opt cache env).1 = true →
      (K8sOp.deleteSvc, env.svcWriteOk) ∈ (updateProxy opt cache env).2 ∧
      ∀ s b, (K8sOp.updateSvc s, b) ∉ (updateProxy opt cache env).2) := by
  constructor
  · intro s b h
    rw [updateProxy_trace] at h
    split at h
    · rcases List.mem_append.mp h with h1 | h1
      · exact absurd h1 (updateSvc_not_in_depBranch opt cache env s b)
      · obtain ⟨hp, hne⟩ := updateSvc_in_svcBranch opt cache env s b h1
        intro hc
        rw [hp] at hc
        cases hcc : cache with
        | nil => exact hne hcc
        | cons x t => rw [hcc] at hc; simp at hc
    · exact absurd h (updateSvc_not_in_depBranch opt cache env s b)
  · intro svc hfound hcache hdep
    constructor
    · rw [updateProxy_trace, if_pos hdep]
      apply List.mem_append_right
      obtain ⟨dg, dw, sg, sw⟩ := env
      have hsg : sg = GetRes.found svc := hfound
      subst hsg
      subst hcache
      simp [updateProxySvcBranch, updateProxyService]
    · intro s b h
      rw [updateProxy_trace, if_pos hdep] at h
      rcases List.mem_append.mp h with h1 | h1
      · exact updateSvc_not_in_depBranch opt cache env s b h1
      · exact (updateSvc_in_svcBranch opt cache env s b h1).2 hcache

/-- Witness for C6: Deployment and Service both found with an empty cache —
the branch converges by deleting the Service. -/
theorem claim6_witness :
    (K8sOp.deleteSvc, envSvcFound.svcWriteOk)
      ∈ (updateProxy sampleOpts [] envSvcFound).2 :=
  ((claim6_service_branch sampleOpts [] envSvcFound).2 sampleSvc rfl rfl
    (by decide)).1
/-- `"1.1.1.1"` -/
def addr1 : GoStr := ['1', '.', '1', '.', '1', '.', '1']
/-- `"2.2.2.2"` -/
def addr2 : GoStr := ['2', '.', '2', '.', '2', '.', '2']

/-- C7 (counterexample to the claim as stated).  After resolving `1.1.1.1`
and failing `PutDefaultProxy`, the registrar requeues `nil` — a signal
carrying NO address, not the resolved one.  In the next iteration it
re-resolves from scratch; if the load balancer now reports `2.2.2.2`, that
fresh address (not the previously resolved `1.1.1.1`) is the one
registered. -/
theorem claim7_counterexample :
    (registrarStep (some addr1) false).putTried = some addr1 ∧
    (registrarStep (some addr1) false).requeuedSignal = some none ∧
    registrarRun [(some addr1, false), (some addr2, true)]
      = [⟨none, some none, some addr1⟩, ⟨some addr2, none, some addr2⟩] ∧
    addr2 ≠ addr1 := by decide

/-- C7 (amended).  The registrar loop is stateless across iterations: each
outcome depends only on that iteration's own resolution and put results;
the address passed to `PutDefaultProxy` is the one resolved in the same
iteration; a successful registration registers exactly the address resolved
in that iteration; and every retry signal is queued as `nil`, carrying no
address. -/
theorem claim7_registrar_stateless (attempts : List (Option GoStr × Bool))
    (k : Nat) (lb : Option GoStr) (ok : Bool)
    (h : attempts[k]? = some (lb, ok)) :
    (registrarRun attempts)[k]? = some (registrarStep lb ok) ∧
    (registrarStep lb ok).putTried = lb ∧
    (∀ ip, (registrarStep lb ok).registered = some ip → lb = some ip ∧ ok = true) ∧
    ((registrarStep lb ok).registered = none →
      (registrarStep lb ok).requeuedSignal = some none) := by
  refine ⟨?_, ?_, ?_, ?_⟩
  · unfold registrarRun
    rw [List.getElem?_map, h]
    rfl
  · cases lb with
    | none => rfl
    | some ip => cases ok <;> rfl
  · intro ip hreg
    cases lb with
    | none => simp [registrarStep] at hreg
    | some j =>
      cases ok with
      | true =>
        simp [registrarStep] at hreg
        exact ⟨by rw [hreg], rfl⟩
      | false => simp [registrarStep] at hreg
  · intro hreg
    cases lb with
    | none => rfl
    | some j =>
      cases ok with
      | true => simp [registrarStep] at hreg
      | false => rfl

/-- Witness for C7: a single successful attempt resolving `2.2.2.2`. -/
theorem claim7_witness :
    (registrarRun [(some addr2, true)])[0]?
      = some (registrarStep (some addr2) true) :=
  (claim7_registrar_stateless [(some addr2, true)] 0 (some addr2) true rfl).1

/-- C8.  Filter honesty (the filter step is modelled from spec §4.4, the
rest from the source): with a non-empty protocol filter and a cache whose
ports are pairwise distinct, after any reconciliation tick every cache
entry's protocol equals the filter case-insensitively — fetched entries are
retained only when their protocol matches, and cache entries survive the
tick only when a fetched (hence matching) entry backs them. -/
theorem claim8_filter_honesty (opt : ManagerOpts) (filt : GoStr)
    (cache : portMap) (R : List PublicPort) (env : K8sEnv)
    (hf : filt ≠ []) (hnd : portsNodup cache) :
    ∀ v ∈ (runTickFiltered opt filt cache (some R) env).1,
      equalFold v.protocol filt = true := by
  intro v hv
  have hR : filterBackendPorts filt R
      = R.filter (fun p => equalFold p.protocol filt) := by
    cases filt with
    | nil => exact absurd rfl hf
    | cons a t => rfl
  set R2 := R.filter (fun p => equalFold p.protocol filt) with hR2
  have hcache : (runTickFiltered opt filt cache (some R) env).1
      = ((R2.foldl upwardStep cache).filter
          (fun e => backendHasPort R2 e.port)) := by
    unfold runTickFiltered
    rw [show (some R).map (filterBackendPorts filt) = some R2 from by
      rw [Option.map_some', hR]]
    rw [runTick_some_fst]
    unfold runDiffDownward
    rw [show (runDiffUpward cache R2).1 = R2.foldl upwardStep cache from by
      unfold runDiffUpward; exact runDiffUpward_fst R2 cache false]
  rw [hcache] at hv
  have hnd1 : portsNodup (R2.foldl upwardStep cache) :=
    portsNodup_upward R2 cache hnd
  have hnd2 : portsNodup ((R2.foldl upwardStep cache).filter
      (fun e => backendHasPort R2 e.port)) :=
    portsNodup_filter _ _ hnd1
  have hlk := mapLookup_of_mem_nodup _ v hnd2 hv
  rw [mapLookup_filter_backend] at hlk
  cases hb : backendHasPort R2 v.port with
  | false => simp [hb] at hlk
  | true =>
    simp only [hb, if_pos] at hlk
    rcases upward_lookup_char R2 cache v.port v hlk with ⟨hmem, _⟩ | ⟨_, hall⟩
    · exact (List.mem_filter.mp hmem).2
    · obtain ⟨f, hfmem, hfp⟩ := List.any_eq_true.mp hb
      have hfp1 : f.port = v.port := by rwa [beq_iff_eq] at hfp
      obtain ⟨hq, hp⟩ := hall f hfmem hfp1
      have hef : equalFold f.protocol filt = true := (List.mem_filter.mp hfmem).2
      rwa [hp] at hef

/-- Witness for C8: filter `tcp`, empty starting cache, an http and a tcp
port fetched — the surviving tcp entry matches the filter. -/
theorem claim8_witness :
    equalFold sampleTcp443.protocol tcpStr = true :=
  claim8_filter_honesty sampleOpts tcpStr [] [samplePort80, sampleTcp443]
    envAllOk (by decide) (by simp [portsNodup]) sampleTcp443 (by decide)

end PortManager
